import Mathlib

/-!
Verification development for the link-repair utilities of this repository:
`update_links.py` (migration of `/engineers/`, `/analysts/` links to
`/data-engineering/`, `/data-analytics/`) and `fix_all_links.py` (generic
broken-link repair).  The path-index builder, the two link resolvers, the
static fallback table and the markdown rewriters are embedded shallowly:
Python strings become Lean `String`s manipulated through their character
lists, Python dicts become association lists, and the two regex
substitutions become deterministic character-level scanners that reproduce
the exact (greedy, non-overlapping, left-to-right) behaviour of the
patterns used in the sources.
-/

namespace ProphecyLinks

/-! ### Character-level string primitives (Python semantics) -/

/-- Python `len(s)` (characters). -/
def sLen (s : String) : Nat := s.data.length

/-- Python slicing `s[n:]` (by characters). -/
def sDrop (s : String) (n : Nat) : String := String.mk (s.data.drop n)

/-- Python slicing `s[:-n]` (by characters). -/
def sDropRight (s : String) (n : Nat) : String :=
  String.mk (s.data.take (s.data.length - n))

/-- Python `s.startswith(p)`. -/
def sStarts (s p : String) : Bool := p.data.isPrefixOf s.data

/-- Python `s.endswith(p)`. -/
def sEnds (s p : String) : Bool := p.data.isSuffixOf s.data

/-- Python `c in s` for a single character. -/
def sContainsChar (s : String) (c : Char) : Bool := s.data.contains c

/-- Substring occurrence test on character lists. -/
def listHasInfix (sub : List Char) : List Char → Bool
  | [] => sub.isEmpty
  | c :: t => sub.isPrefixOf (c :: t) || listHasInfix sub t

/-- Python `sub in s` (substring containment). -/
def sContainsSub (s sub : String) : Bool := listHasInfix sub.data s.data

/-- Python `s.lstrip('/')`: drop every leading slash. -/
def lstripSlash (s : String) : String := String.mk (s.data.dropWhile (· == '/'))

/-- Python `s.rstrip('./')`: drop every trailing `.` or `/`. -/
def rstripDotSlash (s : String) : String :=
  String.mk ((s.data.reverse.dropWhile (fun c => c == '.' || c == '/')).reverse)

/-- Python `s.strip()` (whitespace at both ends). -/
def trimWS (s : String) : String :=
  String.mk (((s.data.dropWhile Char.isWhitespace).reverse.dropWhile
    Char.isWhitespace).reverse)

/-- Characters before the first occurrence of `c` (`s.split(c, 1)[0]`). -/
def beforeCh (c : Char) (s : String) : String :=
  String.mk (s.data.takeWhile (· != c))

/-- Characters after the first occurrence of `c` (`s.split(c, 1)[1]`). -/
def afterCh (c : Char) (s : String) : String :=
  String.mk ((s.data.dropWhile (· != c)).drop 1)

/-- Non-overlapping left-to-right replacement on character lists, as in
Python `str.replace`.  An empty pattern is left untouched (the sources only
replace the non-empty literals `.mdanalysts` and `.mdengineers`). -/
def replaceList (pat repl : List Char) : List Char → List Char
  | [] => []
  | c :: t =>
    if h : pat ≠ [] ∧ pat.isPrefixOf (c :: t) then
      repl ++ replaceList pat repl ((c :: t).drop pat.length)
    else
      c :: replaceList pat repl t
termination_by l => l.length
decreasing_by
  · simp only [List.length_drop, List.length_cons]
    have : 0 < pat.length := List.length_pos.mpr h.1
    omega
  · simp

/-- Python `s.replace(pat, repl)`. -/
def sReplace (s pat repl : String) : String :=
  String.mk (replaceList pat.data repl.data s.data)

/-- Split a character list at every occurrence of `c`, keeping empty
pieces, as in Python `s.split(c)`; the result is never empty. -/
def splitCh (c : Char) : List Char → List (List Char)
  | [] => [[]]
  | x :: t =>
    match splitCh c t with
    | [] => [[]]
    | h :: r => if x == c then [] :: h :: r else (x :: h) :: r

/-- Python `s.split('/')`. -/
def splitSlash (s : String) : List String := (splitCh '/' s.data).map String.mk

/-- Python `'/'.join(parts)`. -/
def joinSlash : List String → String
  | [] => ""
  | [p] => p
  | p :: q :: r => p ++ "/" ++ joinSlash (q :: r)

/-- Python `s.split('\n')`. -/
def splitLines (s : String) : List String := (splitCh '\n' s.data).map String.mk

/-! ### The path index

Both sources build a mapping from lookup keys to lists of document paths,
appending to the candidate list of an existing key and creating the key
otherwise (`defaultdict(list)` in `fix_all_links.py`, an explicit
`if k not in d: d[k] = []` in `update_links.py` — identical semantics).
We embed the mapping as an association list in key-creation order. -/

abbrev Idx := List (String × List String)

/-- Register document `v` under key `k`: append to the key's candidate
list, creating the key at the end on first registration. -/
def addReg : Idx → String → String → Idx
  | [], k, v => [(k, [v])]
  | (k', l) :: rest, k, v =>
    if k' == k then (k', l ++ [v]) :: rest else (k', l) :: addReg rest k v

/-- Python `d[k] if k in d else None`. -/
def idxGet (idx : Idx) (k : String) : Option (List String) :=
  (idx.find? (fun p => p.1 == k)).map (fun p => p.2)

/-- Candidate list of a key, empty when the key is absent. -/
def idxGetL (idx : Idx) (k : String) : List String := (idxGet idx k).getD []

/-- Final path segment of an extension-stripped relative path; this is
`mdx_file.stem` in both sources, since the indexed `path_str` is the
relative path with the `.mdx` suffix already removed. -/
def stemOf (d : String) : String := (splitSlash d).getLastD ""

/-- The path-suffix keys of a document: `'/'.join(path_parts[i:])` for
every `i` in `range(len(path_parts))` (the loop shared by both builders). -/
def sfxKeys (d : String) : List String :=
  (List.range (splitSlash d).length).map (fun i => joinSlash ((splitSlash d).drop i))

/-- Keys registered per document by `fix_all_links.build_file_index`:
full path, filename (stem), then every path suffix (the suffix at `i = 0`
repeats the full path). -/
def regFix (d : String) : List String := [d, stemOf d] ++ sfxKeys d

/-- Keys registered per document by `update_links.build_file_index`:
filename (stem), then every path suffix. -/
def regUpd (d : String) : List String := [stemOf d] ++ sfxKeys d

/-- Common builder skeleton: documents in discovery order, each document's
registration keys in source order. -/
def buildIndexWith (reg : String → List String) (docs : List String) : Idx :=
  docs.foldl (fun idx d => (reg d).foldl (fun i k => addReg i k d) idx) []

/-- `build_file_index` of `fix_all_links.py`, taking the discovered
extension-stripped relative paths (forward slashes) in discovery order. -/
def build_file_index_fix (docs : List String) : Idx := buildIndexWith regFix docs

/-- `build_file_index` of `update_links.py`, same input convention. -/
def build_file_index_update (docs : List String) : Idx := buildIndexWith regUpd docs

/-! ### The resolver of `fix_all_links.py`: `find_correct_path` -/

/-- Normalization at the top of `find_correct_path`: strip leading
slashes, remove a `.mdanalysts`/`.mdengineers` corruption (via
`str.replace`, guarded by `endswith`), strip a trailing `.md`, strip
trailing `.` and `/` characters. -/
def fcpNormalize (broken_path : String) : String :=
  let path := lstripSlash broken_path
  let path :=
    if sEnds path ".mdanalysts" then sReplace path ".mdanalysts" ""
    else if sEnds path ".mdengineers" then sReplace path ".mdengineers" ""
    else path
  let path := if sEnds path ".md" then sDropRight path 3 else path
  rstripDotSlash path

/-- Filename-first branch of `find_correct_path` (lines 103-113): look the
final segment up; prefer a candidate starting with the first path segment
when the path has more than one segment, else the first candidate. -/
def fcpFilenameStep (path_parts : List String) (file_index : Idx) : Option String :=
  let filename := path_parts.getLastD ""
  match idxGet file_index filename with
  | some candidates =>
    if candidates ≠ [] then
      let base_dir := if 1 < path_parts.length then path_parts.headD "" else ""
      if base_dir ≠ "" then
        match candidates.find? (fun c => sStarts c base_dir) with
        | some c => some ("/" ++ c)
        | none => some ("/" ++ candidates.headD "")
      else some ("/" ++ candidates.headD "")
    else none
  | none => none

/-- Exact-path branch of `find_correct_path` (lines 116-119): first
candidate of the full normalized path, with no tie-break. -/
def fcpExactStep (path : String) (file_index : Idx) : Option String :=
  match idxGet file_index path with
  | some candidates =>
    if candidates ≠ [] then some ("/" ++ candidates.headD "") else none
  | none => none

/-- Suffix loop of `find_correct_path` (lines 122-132): `i` counts the
number of trailing segments still to try, from `len(path_parts)` down to
1; on the first key hit, prefer a candidate starting with the first
segment of the query, else fall back to the first candidate. -/
def fcpSuffixLoop (path_parts : List String) (file_index : Idx) : Nat → Option String
  | 0 => none
  | i + 1 =>
    let partKey := joinSlash (path_parts.drop (path_parts.length - (i + 1)))
    match idxGet file_index partKey with
    | some candidates =>
      if candidates ≠ [] then
        let base_dir := path_parts.headD ""
        match candidates.find? (fun c => base_dir != "" && sStarts c base_dir) with
        | some c => some ("/" ++ c)
        | none => some ("/" ++ candidates.headD "")
      else fcpSuffixLoop path_parts file_index i
    | none => fcpSuffixLoop path_parts file_index i

/-- `find_correct_path(broken_path, file_index)` of `fix_all_links.py`.
Returns `none` for Python `None`. -/
def find_correct_path (broken_path : String) (file_index : Idx) : Option String :=
  let path := fcpNormalize broken_path
  let path_parts := splitSlash path
  match fcpFilenameStep path_parts file_index with
  | some r => some r
  | none =>
    match fcpExactStep path file_index with
    | some r => some r
    | none => fcpSuffixLoop path_parts file_index path_parts.length

/-! ### The resolver of `update_links.py`: `find_target_path` -/

/-- The `# Engineers mappings` half of the `common_mappings` dict literal,
in source order. -/
def engineersBlock : List (String × String) :=
  [("dependencies", "data-engineering/extensibility/dependencies"),
   ("pipelines", "data-engineering/development/pipelines/pipelines"),
   ("data-sampling", "data-engineering/development/runs/data-sampling"),
   ("execution", "data-engineering/development/runs/execution"),
   ("execution-metrics", "data-engineering/fabrics/execution-metrics"),
   ("gems", "data-engineering/gems/gems"),
   ("git", "data-engineering/ci-cd/git/git"),
   ("git-workflow", "data-engineering/ci-cd/git/git-workflow"),
   ("resolve-git-conflicts", "data-engineering/ci-cd/git/git-resolve"),
   ("git-pull-requests", "data-engineering/ci-cd/git/git"),
   ("deployment", "data-engineering/ci-cd/deployment/deployment"),
   ("package-hub", "data-engineering/extensibility/package-hub/package-hub"),
   ("user-defined-functions", "data-engineering/development/functions/user-defined-functions"),
   ("business-rules", "data-engineering/development/functions/business-rules-engine/business-rules-engine"),
   ("source-target", "data-engineering/gems/source-target"),
   ("transform", "data-engineering/gems/transform"),
   ("join-split", "data-engineering/gems/join-split"),
   ("subgraph", "data-engineering/gems/subgraph/subgraph"),
   ("basic-subgraph", "data-engineering/gems/subgraph/basicSubgraph"),
   ("table-iterator", "data-engineering/gems/subgraph/tableIterator"),
   ("configurations", "data-engineering/development/pipelines/configuration"),
   ("pipeline-settings", "data-engineering/development/pipelines/pipeline-settings"),
   ("delta", "data-engineering/gems/source-target/file/delta"),
   ("csv", "data-engineering/gems/source-target/file/csv"),
   ("json", "data-engineering/gems/source-target/file/json"),
   ("parquet", "data-engineering/gems/source-target/file/parquet"),
   ("avro", "data-engineering/gems/source-target/file/avro"),
   ("orc", "data-engineering/gems/source-target/file/orc"),
   ("text", "data-engineering/gems/source-target/file/text"),
   ("xlsx", "data-engineering/gems/source-target/file/xlsx"),
   ("xml", "data-engineering/gems/source-target/file/xml"),
   ("fixed-format", "data-engineering/gems/source-target/file/fixed-format"),
   ("seed", "data-engineering/gems/source-target/file/seed"),
   ("databricks-jobs", "data-engineering/orchestration/databricks-jobs"),
   ("prophecy-build-tool", "data-engineering/ci-cd/prophecy-build-tool/prophecy-build-tool"),
   ("github-actions-prophecy-build-tool", "data-engineering/ci-cd/prophecy-build-tool/pbt-github-actions"),
   ("jenkins-prophecy-build-tool", "data-engineering/ci-cd/prophecy-build-tool/pbt-jenkins"),
   ("unit-tests", "data-engineering/ci-cd/tests"),
   ("data-explorer", "data-engineering/development/data-explorer/data-explorer"),
   ("data-diff", "data-engineering/ci-cd/data-diff"),
   ("lineage", "data-engineering/lineage/lineage"),
   ("expression-builder", "data-engineering/gems/expression-builder"),
   ("aggregate", "data-engineering/gems/transform/aggregate"),
   ("deduplicate", "data-engineering/gems/transform/deduplicate"),
   ("join", "data-engineering/gems/join-split/join"),
   ("reformat", "data-engineering/gems/transform/reformat"),
   ("order-by", "data-engineering/gems/transform/order-by"),
   ("repartition", "data-engineering/gems/join-split/repartition"),
   ("schema-transform", "data-engineering/gems/transform/schema-transform"),
   ("filter", "data-engineering/gems/transform/filter"),
   ("limit", "data-engineering/gems/transform/limit"),
   ("secrets", "data-engineering/fabrics/livy"),
   ("prophecy-libraries", "data-engineering/extensibility/dependencies/prophecy-libs"),
   ("spark-dependencies", "data-engineering/extensibility/dependencies/spark-dependencies"),
   ("gem-builder-reference", "data-engineering/extensibility/gem-builder/gem-builder-reference"),
   ("optimization-functions", "data-engineering/extensibility/gem-builder/optimization-functions"),
   ("models", "data-engineering/development/models/models"),
   ("model-sources-and-targets", "data-engineering/development/models/sources-target/sources-target"),
   ("data-model-configurations", "data-engineering/development/models/configuration"),
   ("dataset", "data-engineering/development/dataset"),
   ("orchestration", "data-engineering/orchestration"),
   ("develop-and-deploy", "data-engineering/ci-cd/deployment/deployment"),
   ("ci-cd", "data-engineering/ci-cd/reliable-ci-cd")]

/-- The `# Analysts mappings` half of the `common_mappings` dict literal,
in source order. -/
def analystsBlock : List (String × String) :=
  [("secrets", "data-analytics/environment/secrets/secrets"),
   ("csv", "data-analytics/gems/source-target/file/file-types/csv"),
   ("json", "data-analytics/gems/source-target/file/file-types/json"),
   ("parquet", "data-analytics/gems/source-target/file/file-types/parquet"),
   ("excel", "data-analytics/gems/source-target/file/file-types/excel"),
   ("xml", "data-analytics/gems/source-target/file/file-types/xml"),
   ("fixed-width", "data-analytics/gems/source-target/file/file-types/fixed-width"),
   ("source-target", "data-analytics/gems/source-target/source-target"),
   ("gems", "data-analytics/gems/gems"),
   ("connections", "data-analytics/environment/connections/connections"),
   ("versioning", "data-analytics/development/versioning/version-control"),
   ("scheduling", "data-analytics/production/scheduling/scheduling"),
   ("triggers", "data-analytics/production/scheduling/triggers"),
   ("monitoring", "data-analytics/production/monitoring"),
   ("project-publication", "data-analytics/production/publication"),
   ("pipeline-parameters", "data-analytics/development/pipeline-params"),
   ("pipeline-execution", "data-analytics/development/runs/execution"),
   ("pipeline-trigger-gem", "data-analytics/production/scheduling/pipeline-trigger-gem"),
   ("project-editor", "data-analytics/development/studio/studio"),
   ("containers", "data-analytics/development/studio/containers"),
   ("charts", "data-analytics/development/runs/data-explorer/charts/charts"),
   ("data-explorer", "data-analytics/development/runs/data-explorer/data-explorer"),
   ("business-applications", "data-analytics/collaboration/prophecy-apps/apps"),
   ("create-business-applications", "data-analytics/collaboration/prophecy-apps/app-creation"),
   ("business-application-components", "data-analytics/collaboration/prophecy-apps/app-components"),
   ("run-apps", "data-analytics/collaboration/prophecy-apps/run-apps"),
   ("app-builder", "data-analytics/collaboration/prophecy-apps/app-builder"),
   ("app-settings", "data-analytics/collaboration/prophecy-apps/app-settings"),
   ("project-sharing", "data-analytics/collaboration/project-sharing"),
   ("migrate-managed-projects", "data-analytics/development/versioning/migrate-managed"),
   ("import-projects", "data-analytics/development/versioning/import-projects"),
   ("clone-projects", "data-analytics/development/versioning/clone-projects"),
   ("collaboration-modes", "data-analytics/development/versioning/collaboration-modes"),
   ("visual-expression-builder", "data-analytics/gems/visual-expression-builder/visual-expression-builder"),
   ("visual-expression-builder-reference", "data-analytics/gems/visual-expression-builder/visual-expression-builder-reference"),
   ("variant-schema", "data-analytics/gems/visual-expression-builder/variant-schema"),
   ("flatten-schema", "data-analytics/gems/prepare/flatten-schema"),
   ("join", "data-analytics/gems/join-split/join"),
   ("union", "data-analytics/gems/join-split/union"),
   ("union-by-name", "data-analytics/gems/join-split/union-by-name"),
   ("filter", "data-analytics/gems/prepare/filter"),
   ("aggregate", "data-analytics/gems/transform/aggregate"),
   ("order-by", "data-analytics/gems/prepare/order-by"),
   ("reformat", "data-analytics/gems/prepare/reformat"),
   ("data-cleansing", "data-analytics/gems/prepare/data-cleansing"),
   ("window", "data-analytics/gems/transform/window"),
   ("pivot", "data-analytics/gems/transform/pivot"),
   ("unpivot", "data-analytics/gems/transform/unpivot"),
   ("buffer", "data-analytics/gems/spatial/buffer"),
   ("find-nearest", "data-analytics/gems/spatial/nearest-point"),
   ("simplify", "data-analytics/gems/spatial/simplify"),
   ("heatmap", "data-analytics/gems/spatial/heatmap"),
   ("polybuild", "data-analytics/gems/spatial/polybuild"),
   ("spatial-match", "data-analytics/gems/spatial/spatial-match"),
   ("create-point", "data-analytics/gems/spatial/create-point"),
   ("distance", "data-analytics/gems/spatial/distance"),
   ("nearest-point", "data-analytics/gems/spatial/nearest-point"),
   ("count-records", "data-analytics/gems/transform/count-records"),
   ("directory", "data-analytics/gems/custom/directory"),
   ("data-masking", "data-analytics/gems/prepare/masking"),
   ("encode-decode", "data-analytics/gems/transform/encoder-decoder"),
   ("find-duplicates", "data-analytics/gems/prepare/find-duplicates"),
   ("record-id", "data-analytics/gems/prepare/record-id"),
   ("dynamic-input", "data-analytics/gems/custom/dynamic-input"),
   ("stored-procedure", "data-analytics/gems/custom/stored-procedure"),
   ("stored-procedure-gem", "data-analytics/gems/custom/stored-procedure"),
   ("bigquery", "data-analytics/gems/source-target/table/bigquery"),
   ("bigquery-table", "data-analytics/gems/source-target/table/bigquery"),
   ("databricks", "data-analytics/gems/source-target/table/databricks"),
   ("databricks-table", "data-analytics/gems/source-target/table/databricks"),
   ("snowflake", "data-analytics/gems/source-target/external-table/snowflake"),
   ("redshift", "data-analytics/gems/source-target/external-table/redshift"),
   ("mssql", "data-analytics/gems/source-target/external-table/mssql"),
   ("oracle", "data-analytics/gems/source-target/external-table/oracle"),
   ("mongodb", "data-analytics/gems/source-target/external-table/mongodb"),
   ("salesforce", "data-analytics/gems/source-target/external-table/salesforce"),
   ("synapse", "data-analytics/gems/source-target/external-table/synapse"),
   ("hana-gem", "data-analytics/gems/source-target/external-table/hana/hana"),
   ("hana-generated-columns", "data-analytics/gems/source-target/external-table/hana/identity-columns"),
   ("adls-gem", "data-analytics/gems/source-target/file/adls"),
   ("gcs-gem", "data-analytics/gems/source-target/file/gcs"),
   ("s3-gem", "data-analytics/gems/source-target/file/s3"),
   ("sftp-gem", "data-analytics/gems/source-target/file/sftp"),
   ("onedrive-gem", "data-analytics/gems/source-target/file/onedrive"),
   ("sharepoint-gem", "data-analytics/gems/source-target/file/sharepoint"),
   ("smartsheet-gem", "data-analytics/gems/source-target/file/smartsheet"),
   ("email", "data-analytics/gems/report/email"),
   ("power-bi-write", "data-analytics/gems/report/power-bi"),
   ("tableau", "data-analytics/gems/report/tableau"),
   ("file-types", "data-analytics/gems/source-target/file"),
   ("data-types", "data-analytics/gems/data-types"),
   ("logs", "data-analytics/development/runs/runtime-logs"),
   ("ai-chat", "data-analytics/ai/agent/agent"),
   ("ai-explore", "data-analytics/ai/agent/explore"),
   ("dependencies", "data-analytics/development/extensibility/dependencies"),
   ("script", "data-analytics/gems/custom/script"),
   ("macro", "data-analytics/gems/custom/macro"),
   ("sql-statement", "data-analytics/gems/custom/sql-statement"),
   ("rest-api", "data-analytics/gems/custom/rest-api"),
   ("schedule-email-alerts", "data-analytics/production/scheduling/alerts")]

/-- The full `common_mappings` dict literal of `find_target_path`, in
source order (engineers entries first, then analysts entries). -/
def common_mappings : List (String × String) := engineersBlock ++ analystsBlock

/-- Lookup in a Python dict literal built from a pair list with possibly
repeated keys: a later binding overrides an earlier one, so the last
matching pair wins. -/
def dictLast (l : List (String × String)) (k : String) : Option String :=
  (l.reverse.find? (fun p => p.1 == k)).map (fun p => p.2)

/-- Append the preserved `#` fragment onto a result, as done at every
return site of `find_target_path` (`if hash_fragment: result += ...`,
which skips `None` and the empty fragment). -/
def addFrag (frag : Option String) (r : String) : String :=
  match frag with
  | none => r
  | some h => if h ≠ "" then r ++ "#" ++ h else r

/-- Candidate test of the two section-preference loops of
`find_target_path`: an engineer query wants a `data-engineering` start, an
analyst query a `data-analytics` start. -/
def sectionHit (isEng : Bool) (c : String) : Bool :=
  if isEng then sStarts c "data-engineering" else sStarts c "data-analytics"

/-- First lookup of `find_target_path` (lines 134-154): the full
`path_part` as a key; a single candidate is returned directly, several
candidates are scanned for a section match, with fall-through (to the
suffix loop) when no candidate matches the section. -/
def ftpLookupStep (path_part : String) (file_index : Idx) (isEng : Bool) :
    Option String :=
  match idxGet file_index path_part with
  | some candidates =>
    match candidates with
    | [] => none
    | [c] => some ("/" ++ c)
    | _ :: _ :: _ => (candidates.find? (sectionHit isEng)).map (fun c => "/" ++ c)
  | none => none

/-- Suffix loop of `find_target_path` (lines 161-175): `i` counts the
trailing segments still to try, from `len(path_segments)` down to 1; a hit
resolves only through a section-matching candidate, otherwise the loop
continues with a shorter suffix. -/
def ftpSuffixLoop (path_segments : List String) (file_index : Idx) (isEng : Bool) :
    Nat → Option String
  | 0 => none
  | i + 1 =>
    let partKey := joinSlash (path_segments.drop (path_segments.length - (i + 1)))
    match (idxGet file_index partKey).bind (fun cs => cs.find? (sectionHit isEng)) with
    | some c => some ("/" ++ c)
    | none => ftpSuffixLoop path_segments file_index isEng i

/-- Body of `find_target_path` after prefix stripping and fragment
splitting: lookup, suffix loop, `common_mappings`, then the last-resort
section synthesis; every return site appends the fragment. -/
def ftpCore (path_part : String) (frag : Option String) (file_index : Idx)
    (isEng : Bool) : Option String :=
  match ftpLookupStep path_part file_index isEng with
  | some r => some (addFrag frag r)
  | none =>
    match ftpSuffixLoop (splitSlash path_part) file_index isEng
        (splitSlash path_part).length with
    | some r => some (addFrag frag r)
    | none =>
      match dictLast common_mappings path_part with
      | some v => some (addFrag frag ("/" ++ v))
      | none =>
        some (addFrag frag
          ((if isEng then "/data-engineering/" else "/data-analytics/") ++ path_part))

/-- Prefix stripping at the top of `find_target_path` (lines 110-121):
drop leading slashes, a `docs/` marker, then an `engineers/` or
`analysts/` marker, adjusting the section flag accordingly. -/
def ftpStrip (old_path : String) (is_engineer : Bool) : String × Bool :=
  let p := lstripSlash old_path
  let p := if sStarts p "docs/" then sDrop p 5 else p
  if sStarts p "engineers/" then (sDrop p 10, true)
  else if sStarts p "analysts/" then (sDrop p 9, false)
  else (p, is_engineer)

/-- Fragment splitting of `find_target_path` (lines 124-128): split at the
first `#` when one is present. -/
def splitHash (p : String) : String × Option String :=
  if sContainsChar p '#' then (beforeCh '#' p, some (afterCh '#' p))
  else (p, none)

/-- `find_target_path(old_path, file_index, is_engineer)` of
`update_links.py`.  The Python signature is `Optional[str]`; the function
in fact returns a path on every input (see the totality theorem). -/
def find_target_path (old_path : String) (file_index : Idx)
    (is_engineer : Bool) : Option String :=
  let pe := ftpStrip old_path is_engineer
  let pf := splitHash pe.1
  ftpCore pf.1 pf.2 file_index pe.2

/-! ### Markdown link rewriting

Both sources rewrite links with `re.sub`.  The three patterns used are

  * `fix_all_links.py`:  `(\[[^\]]+\]\()(<broken>)(#[^\)]*)?(\))`
  * `update_links.py` 1: `(\[([^\]]+)\]\((/engineers|/analysts)([^)]+)\))`
  * `update_links.py` 2: `(\[([^\]]+)\]\((docs/(engineers|analysts)([^)]+))\))`

Each pattern's character classes exclude their own closing delimiter, so
greedy matching is forced and the match at a position is deterministic;
`re.sub` scans left to right, replacing non-overlapping matches and
resuming after each match.  We embed each pattern as a head-matcher
returning (display text, full target text between the parentheses,
remainder), built from small total steps, plus one generic scanner. -/

/-- Consume one expected character. -/
def expectCh (c : Char) : List Char → Option (List Char)
  | [] => none
  | x :: t => if x = c then some t else none

/-- Shared `\[[^\]]+\]\(` head of all three patterns: an opening bracket,
a non-empty display text without `]`, then `](`.  Returns the display text
and the remainder after the opening parenthesis. -/
def splitBracketHead (s : List Char) : Option (List Char × List Char) :=
  (expectCh '[' s).bind fun t =>
    if t.takeWhile (· != ']') = [] then none
    else
      (expectCh ']' (t.dropWhile (· != ']'))).bind fun u =>
        (expectCh '(' u).map fun v => (t.takeWhile (· != ']'), v)

/-- Target part of the `fix_all_links.py` pattern: the literal broken
link, an optional `#`-fragment of non-`)` characters, then `)`.  Returns
the full text between the parentheses and the remainder after `)`. -/
def matchTargetF (b v : List Char) : Option (List Char × List Char) :=
  if b.isPrefixOf v then
    match expectCh ')' (v.drop b.length) with
    | some rest => some (b, rest)
    | none =>
      (expectCh '#' (v.drop b.length)).bind fun w =>
        (expectCh ')' (w.dropWhile (· != ')'))).map fun rest =>
          (b ++ '#' :: w.takeWhile (· != ')'), rest)
  else none

/-- Target part of the first `update_links.py` pattern: a `/engineers` or
`/analysts` marker, at least one non-`)` character, then `)`. -/
def matchTargetU1 (v : List Char) : Option (List Char × List Char) :=
  match
    (if "/engineers".data.isPrefixOf v then some "/engineers".data
     else if "/analysts".data.isPrefixOf v then some "/analysts".data
     else none : Option (List Char)) with
  | some p =>
    if (v.drop p.length).takeWhile (· != ')') = [] then none
    else
      (expectCh ')' ((v.drop p.length).dropWhile (· != ')'))).map fun rest =>
        (p ++ (v.drop p.length).takeWhile (· != ')'), rest)
  | none => none

/-- Target part of the second `update_links.py` pattern: `docs/`, an
`engineers` or `analysts` marker, at least one non-`)` character, `)`. -/
def matchTargetU2 (v : List Char) : Option (List Char × List Char) :=
  if "docs/".data.isPrefixOf v then
    match
      (if "engineers".data.isPrefixOf (v.drop 5) then some "engineers".data
       else if "analysts".data.isPrefixOf (v.drop 5) then some "analysts".data
       else none : Option (List Char)) with
    | some g =>
      if ((v.drop 5).drop g.length).takeWhile (· != ')') = [] then none
      else
        (expectCh ')' (((v.drop 5).drop g.length).dropWhile (· != ')'))).map fun rest =>
          ("docs/".data ++ g ++ ((v.drop 5).drop g.length).takeWhile (· != ')'), rest)
    | none => none
  else none

/-- Full head-matcher for a pattern with target matcher `mt`. -/
def withHead (mt : List Char → Option (List Char × List Char)) (s : List Char) :
    Option (List Char × List Char × List Char) :=
  match splitBracketHead s with
  | some (d, v) =>
    match mt v with
    | some (tg, rest) => some (d, tg, rest)
    | none => none
  | none => none

theorem expectCh_eq {c : Char} {s t : List Char} (h : expectCh c s = some t) :
    s = c :: t := by
  match s with
  | [] => simp [expectCh] at h
  | x :: u =>
    rw [expectCh] at h
    split at h
    next hx =>
      have hu : u = t := by simpa using h
      subst hu; rw [hx]
    next => simp at h

theorem splitBracketHead_recon {s : List Char} {d v : List Char}
    (h : splitBracketHead s = some (d, v)) :
    s = '[' :: d ++ ']' :: '(' :: v ∧ d ≠ [] ∧ ∀ x ∈ d, x ≠ ']' := by
  rw [splitBracketHead, Option.bind_eq_some] at h
  obtain ⟨t, h1, h⟩ := h
  split at h
  · simp at h
  next hne =>
    rw [Option.bind_eq_some] at h
    obtain ⟨u, h2, h⟩ := h
    rw [Option.map_eq_some'] at h
    obtain ⟨v2, h3, hp⟩ := h
    cases hp
    obtain rfl := expectCh_eq h1
    have ht : t = t.takeWhile (· != ']') ++ (']' :: '(' :: v) := by
      conv_lhs => rw [← List.takeWhile_append_dropWhile (fun x => x != ']') t]
      rw [expectCh_eq h2, expectCh_eq h3]
    refine ⟨?_, hne, fun x hx => ?_⟩
    · conv_lhs => rw [ht]
      simp
    · have := List.mem_takeWhile_imp hx
      simpa using this

theorem matchTargetF_recon {b v tg rest : List Char}
    (h : matchTargetF b v = some (tg, rest)) :
    v = tg ++ ')' :: rest ∧
      ∃ hs, tg = b ++ hs ∧
        (hs = [] ∨ ∃ h2, hs = '#' :: h2 ∧ ∀ x ∈ h2, x ≠ ')') := by
  rw [matchTargetF] at h
  split at h
  case isFalse => simp at h
  case isTrue hpre =>
    have hv : v = b ++ v.drop b.length :=
      (List.prefix_iff_eq_append.mp (List.isPrefixOf_iff_prefix.mp hpre)).symm
    split at h
    next rest2 h1 =>
      have hbr : b = tg ∧ rest2 = rest := by simpa using h
      obtain ⟨rfl, rfl⟩ := hbr
      refine ⟨?_, [], by simp⟩
      conv_lhs => rw [hv, expectCh_eq h1]
    next h1 =>
      rw [Option.bind_eq_some] at h
      obtain ⟨w, h2, h⟩ := h
      rw [Option.map_eq_some'] at h
      obtain ⟨rest2, h3, hp⟩ := h
      cases hp
      have hw : w = w.takeWhile (· != ')') ++ (')' :: rest) := by
        conv_lhs => rw [← List.takeWhile_append_dropWhile (fun x => x != ')') w]
        rw [expectCh_eq h3]
      refine ⟨?_, '#' :: w.takeWhile (· != ')'), rfl,
          Or.inr ⟨w.takeWhile (· != ')'), rfl, fun x hx => ?_⟩⟩
      · conv_lhs => rw [hv, expectCh_eq h2, hw]
        simp
      · have := List.mem_takeWhile_imp hx
        simpa using this

theorem matchTargetU1_recon {v tg rest : List Char}
    (h : matchTargetU1 v = some (tg, rest)) :
    v = tg ++ ')' :: rest ∧
      ∃ p t2, (p = "/engineers".data ∨ p = "/analysts".data) ∧
        tg = p ++ t2 ∧ t2 ≠ [] ∧ ∀ x ∈ t2, x ≠ ')' := by
  rw [matchTargetU1] at h
  split at h
  case h_2 => simp at h
  case h_1 p hp =>
    have hpor : p = "/engineers".data ∨ p = "/analysts".data := by
      split at hp
      · have h9 : "/engineers".data = p := by simpa using hp
        left; exact h9.symm
      · split at hp
        · have h9 : "/analysts".data = p := by simpa using hp
          right; exact h9.symm
        · simp at hp
    have hpre : p.isPrefixOf v = true := by
      split at hp
      next hif =>
        have h9 : "/engineers".data = p := by simpa using hp
        rw [← h9]; exact hif
      next =>
        split at hp
        next hif =>
          have h9 : "/analysts".data = p := by simpa using hp
          rw [← h9]; exact hif
        next => simp at hp
    have hv : v = p ++ v.drop p.length :=
      (List.prefix_iff_eq_append.mp (List.isPrefixOf_iff_prefix.mp hpre)).symm
    split at h
    · simp at h
    next hne =>
      rw [Option.map_eq_some'] at h
      obtain ⟨rest2, h3, hp2⟩ := h
      cases hp2
      have hw : v.drop p.length
          = (v.drop p.length).takeWhile (· != ')') ++ (')' :: rest) := by
        conv_lhs =>
          rw [← List.takeWhile_append_dropWhile (fun x => x != ')') (v.drop p.length)]
        rw [expectCh_eq h3]
      refine ⟨?_, p, (v.drop p.length).takeWhile (· != ')'), hpor, rfl, hne,
          fun x hx => ?_⟩
      · conv_lhs => rw [hv, hw]
        simp
      · have := List.mem_takeWhile_imp hx
        simpa using this

theorem matchTargetU2_recon {v tg rest : List Char}
    (h : matchTargetU2 v = some (tg, rest)) :
    v = tg ++ ')' :: rest ∧
      ∃ g t2, (g = "engineers".data ∨ g = "analysts".data) ∧
        tg = "docs/".data ++ g ++ t2 ∧ t2 ≠ [] ∧ ∀ x ∈ t2, x ≠ ')' := by
  rw [matchTargetU2] at h
  split at h
  case isFalse => simp at h
  case isTrue hdocs =>
    have hv : v = "docs/".data ++ v.drop 5 := by
      have := (List.prefix_iff_eq_append.mp (List.isPrefixOf_iff_prefix.mp hdocs)).symm
      simpa using this
    split at h
    case h_2 => simp at h
    case h_1 g hg =>
      have hgor : g = "engineers".data ∨ g = "analysts".data := by
        split at hg
        · have h9 : "engineers".data = g := by simpa using hg
          left; exact h9.symm
        · split at hg
          · have h9 : "analysts".data = g := by simpa using hg
            right; exact h9.symm
          · simp at hg
      have hpre : g.isPrefixOf (v.drop 5) = true := by
        split at hg
        next hif =>
          have h9 : "engineers".data = g := by simpa using hg
          rw [← h9]; exact hif
        next =>
          split at hg
          next hif =>
            have h9 : "analysts".data = g := by simpa using hg
            rw [← h9]; exact hif
          next => simp at hg
      have hv5 : v.drop 5 = g ++ (v.drop 5).drop g.length :=
        (List.prefix_iff_eq_append.mp (List.isPrefixOf_iff_prefix.mp hpre)).symm
      split at h
      · simp at h
      next hne =>
        rw [Option.map_eq_some'] at h
        obtain ⟨rest2, h3, hp2⟩ := h
        cases hp2
        have hw : (v.drop 5).drop g.length
            = ((v.drop 5).drop g.length).takeWhile (· != ')') ++ (')' :: rest) := by
          conv_lhs =>
            rw [← List.takeWhile_append_dropWhile (fun x => x != ')')
              ((v.drop 5).drop g.length)]
          rw [expectCh_eq h3]
        refine ⟨?_, g, ((v.drop 5).drop g.length).takeWhile (· != ')'), hgor,
            by simp, hne, fun x hx => ?_⟩
        · conv_lhs => rw [hv, hv5, hw]
          simp
        · have := List.mem_takeWhile_imp hx
          simpa using this

/-- Generic reconstruction for `withHead`. -/
theorem withHead_recon {mt : List Char → Option (List Char × List Char)}
    (hmt : ∀ {v tg rest}, mt v = some (tg, rest) → v = tg ++ ')' :: rest)
    {s d tg rest : List Char} (h : withHead mt s = some (d, tg, rest)) :
    s = '[' :: d ++ ']' :: '(' :: tg ++ ')' :: rest := by
  rw [withHead] at h
  split at h
  case h_2 => simp at h
  case h_1 d2 v hsb =>
    split at h
    case h_2 => simp at h
    case h_1 tg2 rest2 hmt2 =>
      obtain ⟨rfl, rfl, rfl⟩ := by simpa using h
      obtain ⟨hs, -, -⟩ := splitBracketHead_recon hsb
      rw [hs, hmt hmt2]
      simp

/-- Consumed length of a successful `withHead` match. -/
theorem withHead_len {mt : List Char → Option (List Char × List Char)}
    (hmt : ∀ {v tg rest}, mt v = some (tg, rest) → v = tg ++ ')' :: rest)
    {s d tg rest : List Char} (h : withHead mt s = some (d, tg, rest)) :
    rest.length < s.length := by
  rw [withHead_recon hmt h]
  simp
  omega



/-- Fuel-driven worker for the generic `re.sub` scanner (structural
recursion so that concrete runs reduce inside the kernel; the fuel is
always at least the input length, which suffices because every step
consumes at least one character). -/
def scanSubAux (m : List Char → Option (List Char × List Char × List Char))
    (rep : List Char → List Char) : Nat → List Char → List Char
  | 0, s => s
  | _ + 1, [] => []
  | fuel + 1, c :: t =>
    match m (c :: t) with
    | some (d, tg, rest) =>
      '[' :: d ++ ']' :: '(' :: rep tg ++ ')' :: scanSubAux m rep fuel rest
    | none => c :: scanSubAux m rep fuel t

/-- Generic embedding of `re.sub` for the three patterns: scan left to
right; at a match, emit the display text and parentheses with the target
replaced by `rep tg` and resume after the match; otherwise copy one
character.  `hm` bounds the consumed length (discharged by `withHead_len`
at each instantiation) and justifies that the fuel never runs out. -/
def scanSub (m : List Char → Option (List Char × List Char × List Char))
    (hm : ∀ s d tg rest, m s = some (d, tg, rest) → rest.length < s.length)
    (rep : List Char → List Char) (s : List Char) : List Char :=
  scanSubAux m rep s.length s

theorem scanSubAux_fuel (m : List Char → Option (List Char × List Char × List Char))
    (hm : ∀ s d tg rest, m s = some (d, tg, rest) → rest.length < s.length)
    (rep : List Char → List Char) :
    ∀ fuel1 fuel2 s, s.length ≤ fuel1 → s.length ≤ fuel2 →
      scanSubAux m rep fuel1 s = scanSubAux m rep fuel2 s := by
  intro fuel1
  induction fuel1 with
  | zero =>
    intro fuel2 s h1 _
    obtain rfl := List.eq_nil_of_length_eq_zero (Nat.le_zero.mp h1)
    cases fuel2 <;> rfl
  | succ n ih =>
    intro fuel2 s h1 h2
    cases s with
    | nil => cases fuel2 <;> rfl
    | cons c t =>
      cases fuel2 with
      | zero => simp at h2
      | succ n2 =>
        cases hmt : m (c :: t) with
        | some x =>
          obtain ⟨d, tg, rest⟩ := x
          have hr := hm _ _ _ _ hmt
          simp only [List.length_cons] at hr h1 h2
          simp only [scanSubAux, hmt]
          rw [ih n2 rest (by omega) (by omega)]
        | none =>
          simp only [List.length_cons] at h1 h2
          simp only [scanSubAux, hmt]
          rw [ih n2 t (by omega) (by omega)]

theorem scanSub_nil {m hm rep} : scanSub m hm rep [] = [] := rfl

theorem scanSub_cons_some {m hm rep} {c : Char} {t d tg rest : List Char}
    (h : m (c :: t) = some (d, tg, rest)) :
    scanSub m hm rep (c :: t)
      = '[' :: d ++ ']' :: '(' :: rep tg ++ ')' :: scanSub m hm rep rest := by
  show scanSubAux m rep (c :: t).length (c :: t) = _
  rw [show (c :: t).length = t.length + 1 from rfl]
  simp only [scanSubAux, h]
  have hr := hm _ _ _ _ h
  simp only [List.length_cons] at hr
  rw [scanSubAux_fuel m hm rep t.length rest.length rest (by omega) le_rfl]
  rfl

theorem scanSub_cons_none {m hm rep} {c : Char} {t : List Char}
    (h : m (c :: t) = none) :
    scanSub m hm rep (c :: t) = c :: scanSub m hm rep t := by
  show scanSubAux m rep (c :: t).length (c :: t) = _
  rw [show (c :: t).length = t.length + 1 from rfl]
  simp only [scanSubAux, h]
  rfl

/-- Render a chunk decomposition: alternating plain text and link
constructs, with `f` applied to each construct's target. -/
def renderCh (f : List Char → List Char) :
    List (List Char × List Char × List Char) → List Char → List Char
  | [], last => last
  | (p, d, tg) :: rest, last =>
    p ++ '[' :: (d ++ ']' :: '(' :: (f tg ++ ')' :: renderCh f rest last))

/-- Frame decomposition of the generic scanner: every input splits into
plain text and matched link constructs; the output is identical except
that each matched construct's target `tg` becomes `rep tg`.  `Q` carries
whatever shape information the matcher guarantees about a match. -/
theorem scanSub_decomp (m : List Char → Option (List Char × List Char × List Char))
    (hm : ∀ s d tg rest, m s = some (d, tg, rest) → rest.length < s.length)
    (rep : List Char → List Char) (Q : List Char → List Char → Prop)
    (hrec : ∀ s d tg rest, m s = some (d, tg, rest) →
      s = '[' :: d ++ ']' :: '(' :: tg ++ ')' :: rest)
    (hQ : ∀ s d tg rest, m s = some (d, tg, rest) → Q d tg) :
    ∀ s, ∃ ch last, s = renderCh id ch last ∧
      scanSub m hm rep s = renderCh rep ch last ∧ ∀ x ∈ ch, Q x.2.1 x.2.2 := by
  suffices H : ∀ n s, s.length ≤ n → ∃ ch last, s = renderCh id ch last ∧
      scanSub m hm rep s = renderCh rep ch last ∧ ∀ x ∈ ch, Q x.2.1 x.2.2 by
    intro s; exact H s.length s le_rfl
  intro n
  induction n with
  | zero =>
    intro s hs
    obtain rfl := List.eq_nil_of_length_eq_zero (Nat.le_zero.mp hs)
    exact ⟨[], [], rfl, by rw [scanSub_nil]; rfl, by simp⟩
  | succ n ih =>
    intro s hs
    match s with
    | [] => exact ⟨[], [], rfl, by rw [scanSub_nil]; rfl, by simp⟩
    | c :: t =>
      cases hmt : m (c :: t) with
      | some x =>
        obtain ⟨d, tg, rest⟩ := x
        have hrest : rest.length ≤ n := by
          have := hm _ _ _ _ hmt
          simp only [List.length_cons] at this hs
          omega
        obtain ⟨ch, last, e1, e2, e3⟩ := ih rest hrest
        refine ⟨([], d, tg) :: ch, last, ?_, ?_, ?_⟩
        · rw [hrec _ _ _ _ hmt]
          simp only [renderCh, id]
          rw [← e1]
          simp
        · rw [scanSub_cons_some hmt, e2]
          simp [renderCh]
        · intro x hx
          rcases List.mem_cons.mp hx with rfl | hx2
          · exact hQ _ _ _ _ hmt
          · exact e3 x hx2
      | none =>
        obtain ⟨ch, last, e1, e2, e3⟩ := ih t (by simpa using Nat.le_of_succ_le_succ hs)
        match ch, e3 with
        | [], _ =>
          refine ⟨[], c :: last, ?_, ?_, by simp⟩
          · simpa [renderCh] using e1
          · rw [scanSub_cons_none hmt]
            simpa [renderCh] using e2
        | (p, d, tg) :: ch2, e3 =>
          refine ⟨(c :: p, d, tg) :: ch2, last, ?_, ?_, ?_⟩
          · simpa [renderCh] using e1
          · rw [scanSub_cons_none hmt]
            simpa [renderCh] using e2
          · intro x hx
            rcases List.mem_cons.mp hx with rfl | hx2
            · have := e3 (p, d, tg) (by simp)
              simpa using this
            · exact e3 x (by simp [hx2])

/-- When no suffix of the input matches, the scanner is the identity. -/
theorem scanSub_no_match (m : List Char → Option (List Char × List Char × List Char))
    (hm : ∀ s d tg rest, m s = some (d, tg, rest) → rest.length < s.length)
    (rep : List Char → List Char) :
    ∀ s, (∀ t ∈ s.tails, m t = none) → scanSub m hm rep s = s := by
  intro s
  induction s with
  | nil => intro _; rw [scanSub_nil]
  | cons c t ih =>
    intro h
    rw [scanSub_cons_none (h (c :: t) (by simp))]
    rw [ih (fun u hu => h u ((List.mem_tails _ _).mpr
      (((List.mem_tails _ _).mp hu).trans (List.suffix_cons c t))))]

/-! ### The rewriters -/

/-- Length bound for the fix pattern matcher. -/
theorem matchFLen (b : List Char) : ∀ s d tg rest,
    withHead (matchTargetF b) s = some (d, tg, rest) → rest.length < s.length :=
  fun _ _ _ _ h => withHead_len (fun h2 => (matchTargetF_recon h2).1) h

/-- Length bound for the first update pattern matcher. -/
theorem matchU1Len : ∀ s d tg rest,
    withHead matchTargetU1 s = some (d, tg, rest) → rest.length < s.length :=
  fun _ _ _ _ h => withHead_len (fun h2 => (matchTargetU1_recon h2).1) h

/-- Length bound for the second update pattern matcher. -/
theorem matchU2Len : ∀ s d tg rest,
    withHead matchTargetU2 s = some (d, tg, rest) → rest.length < s.length :=
  fun _ _ _ _ h => withHead_len (fun h2 => (matchTargetU2_recon h2).1) h

/-- The `re.sub` of `fix_all_links.fix_links_in_file` for one broken link
`b` resolved to `r`: the replacement keeps the display text and the
matched `#`-fragment (`tg.drop b.length`) and swaps the literal target. -/
def subF (b r : List Char) : List Char → List Char :=
  scanSub (withHead (matchTargetF b)) (matchFLen b)
    (fun tg => r ++ tg.drop b.length)

/-- Image/external-URL skip list of `fix_links_in_file` (lines 152-162). -/
def skipLink (broken_link : String) : Bool :=
  sStarts broken_link "http" || sStarts broken_link "img/" ||
  sStarts broken_link "./img" || sEnds broken_link ".png" ||
  sEnds broken_link ".jpg" || sEnds broken_link ".jpeg" ||
  sEnds broken_link ".gif" || sEnds broken_link ".svg" ||
  sContainsSub broken_link "img/" || sContainsSub broken_link "/img"

/-- Resolution with retry of `fix_links_in_file` (lines 165-171): try the
link as written, then without its leading slash. -/
def fixResolve (broken_link : String) (file_index : Idx) : Option String :=
  match find_correct_path broken_link file_index with
  | some r => some r
  | none =>
    if sStarts broken_link "/" then
      find_correct_path (sDrop broken_link 1) file_index
    else none

/-- One iteration of the `for broken_link in broken_links` loop of
`fix_links_in_file`: skip images/URLs and unresolved links, otherwise
substitute. -/
def fixOneLink (file_index : Idx) (content : String) (broken_link : String) : String :=
  if skipLink broken_link then content
  else
    match fixResolve broken_link file_index with
    | none => content
    | some correct_path =>
      String.mk (subF broken_link.data correct_path.data content.data)

/-- The content transformation of `fix_links_in_file`: the broken links of
the file are substituted in report order, each over the result of the
previous substitution. -/
def fix_links_content (broken_links : List String) (file_index : Idx)
    (content : String) : String :=
  broken_links.foldl (fixOneLink file_index) content

/-- Mapping lookup with on-the-fly fallback shared by both replacement
callbacks of `update_links_in_file` (`mappings.get` then
`find_target_path`; the cache write changes no observable value, so the
cache is modelled by the lookup alone). -/
def resolveCached (mappings : List (String × String)) (file_index : Idx)
    (old_path : String) (isEng : Bool) : Option String :=
  match (mappings.find? (fun p => p.1 == old_path)).map (fun p => p.2) with
  | some v => some v
  | none => find_target_path old_path file_index isEng

/-- Replacement callback of the first `update_links_in_file` pattern:
`old_path` is the whole matched target, `is_engineer` is the comparison of
the alternation group with `/engineers`; an unresolved link keeps the
original text (`return full_match`). -/
def repU1 (mappings : List (String × String)) (file_index : Idx)
    (tg : List Char) : List Char :=
  match resolveCached mappings file_index (String.mk tg)
      (sStarts (String.mk tg) "/engineers") with
  | some n => n.data
  | none => tg

/-- Replacement callback of the second `update_links_in_file` pattern.
The source sets `prefix = match.group(3)` (the whole `docs/...` target)
and `path_part = match.group(4)` (the `engineers`/`analysts` word), so
`old_path = f"/{prefix}{path_part}"` duplicates the section word at the
end, and `is_engineer = prefix == 'engineers'` is always false.  This is
embedded exactly as written. -/
def repU2 (mappings : List (String × String)) (file_index : Idx)
    (tg : List Char) : List Char :=
  let g3 := String.mk tg
  let g4 : String :=
    if sStarts (sDrop g3 5) "engineers" then "engineers" else "analysts"
  match resolveCached mappings file_index ("/" ++ g3 ++ g4) (g3 == "engineers") with
  | some n => n.data
  | none => tg

/-- First `re.sub` pass of `update_links_in_file`. -/
def upSub1 (mappings : List (String × String)) (file_index : Idx) :
    List Char → List Char :=
  scanSub (withHead matchTargetU1) matchU1Len (repU1 mappings file_index)

/-- Second `re.sub` pass of `update_links_in_file`. -/
def upSub2 (mappings : List (String × String)) (file_index : Idx) :
    List Char → List Char :=
  scanSub (withHead matchTargetU2) matchU2Len (repU2 mappings file_index)

/-- The content transformation of `update_links_in_file`: the absolute
`/engineers|/analysts` pass followed by the relative `docs/...` pass. -/
def update_links_content (mappings : List (String × String)) (file_index : Idx)
    (content : String) : String :=
  String.mk (upSub2 mappings file_index (upSub1 mappings file_index content.data))

/-! ### Checker-output parsing and the two `main` functions

The external checker is a black box; `main` is modelled as a function of
its combined output text, the discovered document tree, and the documents
(path, content) on disk, returning the list of (path, new content) writes
performed. -/

/-- One line of the parsing loop shared by `parse_broken_links`
(`update_links.py`) and `parse_all_broken_links` (`fix_all_links.py`):
a line ending in `.mdx` that does not start with the `⎿` glyph selects the
current file; a `⎿` line under a current file contributes the text after
the glyph, if non-empty and accepted by `keep`. -/
def parseStep (keep : String → Bool)
    (st : List (String × List String) × Option String) (line : String) :
    List (String × List String) × Option String :=
  if sEnds line ".mdx" && !(sStarts (trimWS line) "⎿") then (st.1, some (trimWS line))
  else
    match st.2 with
    | some f =>
      if f != "" && sContainsChar line '⎿' then
        let link := trimWS (afterCh '⎿' line)
        if link != "" && keep link then (addReg st.1 f link, st.2) else (st.1, st.2)
      else (st.1, st.2)
    | none => (st.1, st.2)

/-- Link filter of `update_links.parse_broken_links` (line 55-56). -/
def keepUpd (link : String) : Bool :=
  sContainsSub link "/engineers/" || sContainsSub link "/analysts/" ||
  sStarts link "docs/engineers/" || sStarts link "docs/analysts/"

/-- `parse_broken_links` of `update_links.py`: files in first-seen order,
each with its broken links in output order. -/
def parse_broken_links_upd (output : String) : List (String × List String) :=
  ((splitLines output).foldl (parseStep keepUpd) ([], none)).1

/-- `parse_all_broken_links` of `fix_all_links.py` (no link filter). -/
def parse_all_broken_links (output : String) : List (String × List String) :=
  ((splitLines output).foldl (parseStep (fun _ => true)) ([], none)).1

/-- First-occurrence deduplication, modelling the `set` union of
`update_links.main` step 2 (iteration order of a Python set is
unspecified, but every mapping value below is independent of it). -/
def insertNew (l : List String) (x : String) : List String :=
  if l.contains x then l else l ++ [x]

/-- All distinct broken links of a parsed report. -/
def allBrokenOf (parsed : List (String × List String)) : List String :=
  parsed.foldl (fun acc p => p.2.foldl insertNew acc) []

/-- Writes performed by `update_links.main` given the checker output, the
document tree and the on-disk documents: there is no early return on empty
checker output (the source prints a warning and continues); step 4 builds
the mapping dict from the parsed links (`is_engineer` from a
`'/engineers/' in old_path` test), step 5 rewrites every document and
writes it back when the content changed. -/
def update_main_writes (checker_output : String) (tree : List String)
    (docs : List (String × String)) : List (String × String) :=
  let parsed := parse_broken_links_upd checker_output
  let all_broken := allBrokenOf parsed
  let file_index := build_file_index_update tree
  let mappings := all_broken.foldl (fun m old =>
    match find_target_path old file_index (sContainsSub old "/engineers/") with
    | some v => m ++ [(old, v)]
    | none => m) []
  docs.filterMap (fun fc =>
    let nc := update_links_content mappings file_index fc.2
    if nc ≠ fc.2 then some (fc.1, nc) else none)

/-- Writes performed by `fix_all_links.main`: an empty checker output
returns before any fixing (`if not broken_links_output: return`);
otherwise each reported file that exists is rewritten via
`fix_links_in_file` and written back when changed. -/
def fix_main_writes (checker_output : String) (tree : List String)
    (docs : List (String × String)) : List (String × String) :=
  if checker_output = "" then []
  else
    let parsed := parse_all_broken_links checker_output
    let file_index := build_file_index_fix tree
    parsed.filterMap (fun fl =>
      match (docs.find? (fun p => p.1 == fl.1)).map (fun p => p.2) with
      | none => none
      | some content =>
        let nc := fix_links_content fl.2 file_index content
        if nc ≠ content then some (fl.1, nc) else none)

/-! ### Characterization of the path index -/

theorem idxGet_nil (k : String) : idxGet [] k = none := rfl

theorem idxGet_cons (k0 : String) (l : List String) (rest : Idx) (k : String) :
    idxGet ((k0, l) :: rest) k = if k0 = k then some l else idxGet rest k := by
  by_cases h : k0 = k <;> simp [idxGet, List.find?_cons, h]

theorem idxGetL_addReg (idx : Idx) (k' v k : String) :
    idxGetL (addReg idx k' v) k = idxGetL idx k ++ if k = k' then [v] else [] := by
  induction idx with
  | nil =>
    by_cases h : k = k'
    · subst h; simp [addReg, idxGetL, idxGet_cons, idxGet_nil]
    · simp [addReg, idxGetL, idxGet_cons, idxGet_nil, h, Ne.symm h]
  | cons p rest ih =>
    obtain ⟨k0, l⟩ := p
    by_cases h0 : k0 = k'
    · subst h0
      rw [show addReg ((k0, l) :: rest) k0 v = (k0, l ++ [v]) :: rest from by
        simp [addReg]]
      by_cases h : k = k0
      · subst h; simp [idxGetL, idxGet_cons]
      · simp [idxGetL, idxGet_cons, h, Ne.symm h]
    · rw [show addReg ((k0, l) :: rest) k' v = (k0, l) :: addReg rest k' v from by
        simp [addReg, h0]]
      by_cases h : k = k0
      · subst h
        simp [idxGetL, idxGet_cons, h0]
      · simp only [idxGetL, idxGet_cons, h, Ne.symm h, if_false]
        exact ih

theorem idxGetL_regFold (d : String) (ks : List String) (idx : Idx) (k : String) :
    idxGetL (ks.foldl (fun i kk => addReg i kk d) idx) k
      = idxGetL idx k ++ List.replicate (ks.count k) d := by
  induction ks generalizing idx with
  | nil => simp
  | cons k0 ks ih =>
    rw [List.foldl_cons, ih, idxGetL_addReg]
    by_cases h : k = k0
    · subst h
      simp [List.count_cons, List.replicate_succ, List.append_assoc]
    · simp [List.count_cons, h, Ne.symm h]

theorem idxGetL_buildFold (reg : String → List String) (docs : List String)
    (idx : Idx) (k : String) :
    idxGetL (docs.foldl (fun i d => (reg d).foldl (fun i2 kk => addReg i2 kk d) i) idx) k
      = idxGetL idx k ++ docs.flatMap (fun d => List.replicate ((reg d).count k) d) := by
  induction docs generalizing idx with
  | nil => simp
  | cons d ds ih =>
    rw [List.foldl_cons, ih, idxGetL_regFold]
    simp [List.append_assoc]

/-- Candidate-list characterization of both builders: the list under key
`k` is, in discovery order, each document repeated once per registration
of `k` for that document. -/
theorem idxGetL_build (reg : String → List String) (docs : List String) (k : String) :
    idxGetL (buildIndexWith reg docs) k
      = docs.flatMap (fun d => List.replicate ((reg d).count k) d) := by
  have := idxGetL_buildFold reg docs [] k
  simpa [buildIndexWith, idxGetL, idxGet_nil] using this

/-! ### Structure of split and join -/

/-- Character-level `'/'.join`. -/
def joinChar (c : Char) : List (List Char) → List Char
  | [] => []
  | [x] => x
  | x :: y :: r => x ++ c :: joinChar c (y :: r)

theorem splitCh_ne_nil (c : Char) (l : List Char) : splitCh c l ≠ [] := by
  cases l with
  | nil => simp [splitCh]
  | cons x t =>
    rw [splitCh]
    split
    · simp
    · split <;> simp

theorem joinChar_cons_cons (c : Char) (x h : List Char)
    (r : List (List Char)) : joinChar c ((x ++ h) :: r) = x ++ joinChar c (h :: r) := by
  cases r <;> simp [joinChar]

theorem joinChar_splitCh (c : Char) (l : List Char) :
    joinChar c (splitCh c l) = l := by
  induction l with
  | nil => simp [splitCh, joinChar]
  | cons x t ih =>
    cases hs : splitCh c t with
    | nil => exact absurd hs (splitCh_ne_nil c t)
    | cons h r =>
      rw [hs] at ih
      by_cases hx : x = c
      · subst hx
        rw [show splitCh x (x :: t) = [] :: h :: r from by rw [splitCh, hs]; simp]
        show x :: joinChar x (h :: r) = x :: t
        rw [ih]
      · rw [show splitCh c (x :: t) = (x :: h) :: r from by rw [splitCh, hs]; simp [hx]]
        rw [show (x :: h) :: r = ([x] ++ h) :: r from by simp]
        rw [joinChar_cons_cons, ih]
        simp

theorem splitSlash_ne_nil (s : String) : splitSlash s ≠ [] := by
  intro h
  have := splitCh_ne_nil '/' s.data
  simp [splitSlash] at h
  exact this h

theorem joinSlash_map_mk (l : List (List Char)) :
    joinSlash (l.map String.mk) = String.mk (joinChar '/' l) := by
  match l with
  | [] => rfl
  | [x] => rfl
  | x :: y :: r =>
    have ih := joinSlash_map_mk (y :: r)
    simp only [List.map_cons, joinSlash, joinChar] at *
    rw [ih]
    show String.mk ((x ++ ['/']) ++ joinChar '/' (y :: r))
      = String.mk (x ++ '/' :: joinChar '/' (y :: r))
    rw [List.append_assoc]
    rfl

/-- Splitting on `/` and joining with `/` is the identity. -/
theorem joinSlash_splitSlash (s : String) : joinSlash (splitSlash s) = s := by
  rw [splitSlash, joinSlash_map_mk, joinChar_splitCh]

/-- Every piece produced by `splitCh` is free of the split character. -/
theorem splitCh_pieces_free (c : Char) (l : List Char) :
    ∀ p ∈ splitCh c l, c ∉ p := by
  induction l with
  | nil => simp [splitCh]
  | cons x t ih =>
    cases hs : splitCh c t with
    | nil => exact absurd hs (splitCh_ne_nil c t)
    | cons h r =>
      rw [hs] at ih
      by_cases hx : x = c
      · rw [show splitCh c (x :: t) = [] :: h :: r from by rw [splitCh, hs]; simp [hx]]
        intro p hp
        rcases List.mem_cons.mp hp with rfl | hp2
        · simp
        · exact ih p hp2
      · rw [show splitCh c (x :: t) = (x :: h) :: r from by rw [splitCh, hs]; simp [hx]]
        intro p hp
        rcases List.mem_cons.mp hp with rfl | hp2
        · intro hc
          rcases List.mem_cons.mp hc with rfl | hc2
          · exact hx rfl
          · exact ih h (by simp) hc2
        · exact ih p (by simp [hp2])

/-- Pieces of `splitSlash` contain no slash. -/
theorem splitSlash_pieces_free (s : String) :
    ∀ p ∈ splitSlash s, sContainsChar p '/' = false := by
  intro p hp
  simp only [splitSlash, List.mem_map] at hp
  obtain ⟨q, hq, rfl⟩ := hp
  have := splitCh_pieces_free '/' s.data q hq
  simpa [sContainsChar, List.elem_iff] using this

/-- Joining two or more segments always contains a slash. -/
theorem joinSlash_two_contains (p q : String) (r : List String) :
    sContainsChar (joinSlash (p :: q :: r)) '/' = true := by
  simp only [joinSlash, sContainsChar]
  rw [List.elem_iff]
  simp [String.data_append]

theorem drop_pred_eq_getLastD {α : Type} (x : α) :
    ∀ (l : List α), l ≠ [] → l.drop (l.length - 1) = [l.getLastD x]
  | [], h => absurd rfl h
  | [a], _ => rfl
  | a :: b :: t, _ => by
    have ih := drop_pred_eq_getLastD x (b :: t) (by simp)
    have harith : (a :: b :: t).length - 1 = ((b :: t).length - 1) + 1 := by
      simp
    rw [harith, List.drop_succ_cons, ih]
    have hg : (a :: b :: t).getLastD x = (b :: t).getLastD x := by
      simp [List.getLastD_eq_getLast?, List.getLast?_cons_cons]
    rw [hg]

/-! ### Index membership and the claims about the builders -/

theorem mem_idxGetL_build {reg : String → List String} {docs : List String}
    {d k : String} (hd : d ∈ docs) (hk : k ∈ reg d) :
    d ∈ idxGetL (buildIndexWith reg docs) k := by
  rw [idxGetL_build]
  refine List.mem_flatMap.mpr ⟨d, hd, List.mem_replicate.mpr ⟨?_, rfl⟩⟩
  have := List.count_pos_iff.mpr hk
  omega

theorem mem_sfxKeys {d : String} {i : Nat} (hi : i < (splitSlash d).length) :
    joinSlash ((splitSlash d).drop i) ∈ sfxKeys d := by
  simp only [sfxKeys, List.mem_map]
  exact ⟨i, List.mem_range.mpr hi, rfl⟩

theorem full_mem_sfxKeys (d : String) : d ∈ sfxKeys d := by
  have h0 : 0 < (splitSlash d).length := List.length_pos.mpr (splitSlash_ne_nil d)
  have := mem_sfxKeys (d := d) (i := 0) h0
  simpa [joinSlash_splitSlash] using this

/-- Claim C8: in both builders, the candidate list of every key retains
each document once per registration, in discovery order (characterization
equations), and every indexed document appears under its full-path key,
its filename key, and every suffix key — the filename and the one-segment
suffix being listed among those keys. -/
theorem claim_C8 :
    (∀ docs k, idxGetL (build_file_index_fix docs) k
        = docs.flatMap (fun d => List.replicate ((regFix d).count k) d)) ∧
    (∀ docs k, idxGetL (build_file_index_update docs) k
        = docs.flatMap (fun d => List.replicate ((regUpd d).count k) d)) ∧
    (∀ docs d, d ∈ docs →
      (d ∈ idxGetL (build_file_index_fix docs) d ∧
       d ∈ idxGetL (build_file_index_fix docs) (stemOf d) ∧
       d ∈ idxGetL (build_file_index_update docs) d ∧
       d ∈ idxGetL (build_file_index_update docs) (stemOf d)) ∧
      ∀ i < (splitSlash d).length,
        d ∈ idxGetL (build_file_index_fix docs) (joinSlash ((splitSlash d).drop i)) ∧
        d ∈ idxGetL (build_file_index_update docs) (joinSlash ((splitSlash d).drop i))) := by
  refine ⟨fun docs k => idxGetL_build regFix docs k,
    fun docs k => idxGetL_build regUpd docs k, fun docs d hd => ⟨⟨?_, ?_, ?_, ?_⟩, ?_⟩⟩
  · exact mem_idxGetL_build hd (by simp [regFix])
  · exact mem_idxGetL_build hd (by simp [regFix])
  · exact mem_idxGetL_build hd (by simp [regUpd, full_mem_sfxKeys d])
  · exact mem_idxGetL_build hd (by simp [regUpd])
  · intro i hi
    constructor
    · exact mem_idxGetL_build hd (by simp [regFix, mem_sfxKeys hi])
    · exact mem_idxGetL_build hd (by simp [regUpd, mem_sfxKeys hi])

/-- Witness for C8 on a one-document tree. -/
theorem claim_C8_witness :
    "data-engineering/a/b"
      ∈ idxGetL (build_file_index_fix ["data-engineering/a/b"]) "b" := by
  have h := claim_C8.2.2 ["data-engineering/a/b"] "data-engineering/a/b" (by simp)
  have hs : stemOf "data-engineering/a/b" = "b" := by decide
  have := h.1.2.1
  rw [hs] at this
  exact this

/-- A slash-free key counts twice per matching document in the update
registration keys: once as the filename, once as the one-segment suffix;
longer suffixes contain a slash and cannot match. -/
theorem count_regUpd_noslash {k : String} (d : String)
    (hk : sContainsChar k '/' = false) :
    (regUpd d).count k = 2 * (if stemOf d = k then 1 else 0) := by
  have hparts : splitSlash d ≠ [] := splitSlash_ne_nil d
  have hn : 0 < (splitSlash d).length := List.length_pos.mpr hparts
  have hrange : List.range (splitSlash d).length
      = List.range ((splitSlash d).length - 1) ++ [(splitSlash d).length - 1] := by
    have h9 : (splitSlash d).length = ((splitSlash d).length - 1) + 1 := by omega
    conv_lhs => rw [h9]
    rw [List.range_succ]
  have hlastkey : joinSlash ((splitSlash d).drop ((splitSlash d).length - 1))
      = stemOf d := by
    rw [drop_pred_eq_getLastD "" (splitSlash d) hparts]
    rfl
  have hzero : ∀ i < (splitSlash d).length - 1,
      joinSlash ((splitSlash d).drop i) ≠ k := by
    intro i hi heq
    have hlen : 2 ≤ ((splitSlash d).drop i).length := by
      rw [List.length_drop]
      omega
    match hdrop : (splitSlash d).drop i with
    | [] => rw [hdrop] at hlen; simp at hlen
    | [a] => rw [hdrop] at hlen; simp at hlen
    | a :: b :: r =>
      rw [hdrop] at heq
      have := joinSlash_two_contains a b r
      rw [heq, hk] at this
      exact absurd this (by simp)
  have hsfx : (sfxKeys d).count k = if stemOf d = k then 1 else 0 := by
    rw [sfxKeys, hrange, List.map_append, List.count_append]
    have h1 : (List.map (fun i => joinSlash ((splitSlash d).drop i))
        (List.range ((splitSlash d).length - 1))).count k = 0 := by
      rw [List.count_eq_zero]
      intro hmem
      obtain ⟨i, hi, hki⟩ := List.mem_map.mp hmem
      exact hzero i (List.mem_range.mp hi) hki
    rw [h1]
    simp only [List.map_cons, List.map_nil, hlastkey]
    by_cases h : stemOf d = k
    · simp [h, List.count_cons]
    · simp [h, List.count_cons, fun hh : k = stemOf d => h hh.symm]
  rw [regUpd, show ([stemOf d] ++ sfxKeys d : List String)
      = stemOf d :: sfxKeys d from rfl, List.count_cons, hsfx]
  by_cases h : stemOf d = k
  · simp [h]
  · simp [h, fun hh : k = stemOf d => h hh.symm]

theorem flatMap_pairs_even (P : String → Prop) [DecidablePred P] (l : List String) :
    (l.flatMap (fun d => if P d then [d, d] else [])).length % 2 = 0 := by
  induction l with
  | nil => simp
  | cons a t ih =>
    rw [List.flatMap_cons, List.length_append]
    split
    · simp only [List.length_cons, List.length_nil]
      omega
    · simp only [List.length_nil]
      omega

/-- Claim C10: in the update index, a slash-free (bare filename) key lists
every matching document exactly twice, so its candidate list never has
length one and the single-candidate branch of `find_target_path` cannot
fire on such a key. -/
theorem claim_C10 : ∀ (docs : List String) (k : String),
    sContainsChar k '/' = false →
    idxGetL (build_file_index_update docs) k
        = docs.flatMap (fun d => if stemOf d = k then [d, d] else []) ∧
    ∀ cs, idxGet (build_file_index_update docs) k = some cs → cs.length ≠ 1 := by
  intro docs k hk
  have hchar : idxGetL (build_file_index_update docs) k
      = docs.flatMap (fun d => if stemOf d = k then [d, d] else []) := by
    rw [show build_file_index_update docs = buildIndexWith regUpd docs from rfl,
      idxGetL_build]
    congr 1
    funext d
    rw [count_regUpd_noslash d hk]
    by_cases h : stemOf d = k
    · simp [h, List.replicate_succ]
    · simp [h]
  refine ⟨hchar, fun cs hcs => ?_⟩
  have hl : cs = idxGetL (build_file_index_update docs) k := by
    rw [idxGetL, hcs]; rfl
  have heven := flatMap_pairs_even (fun d => stemOf d = k) docs
  rw [hl, hchar]
  intro hlen
  rw [hlen] at heven
  simp at heven

/-- Witness for C10 on a one-document tree. -/
theorem claim_C10_witness :
    idxGetL (build_file_index_update ["data-analytics/y/csv"]) "csv"
        = ["data-analytics/y/csv", "data-analytics/y/csv"] ∧
    (2 : Nat) ≠ 1 := by
  have h := claim_C10 ["data-analytics/y/csv"] "csv" (by decide)
  constructor
  · rw [h.1]; decide
  · have := h.2 ["data-analytics/y/csv", "data-analytics/y/csv"] (by decide)
    simpa using this

/-! ### The duplicate keys of `common_mappings` -/

/-- In a dict literal, a key present in the later block resolves to the
later block's binding. -/
theorem dictLast_append_right {a b : List (String × String)} {k : String}
    (hk : k ∈ b.map Prod.fst) : dictLast (a ++ b) k = dictLast b k := by
  rw [dictLast, dictLast, List.reverse_append, List.find?_append]
  obtain ⟨p, hp, hpk⟩ := List.mem_map.mp hk
  have hsome : (b.reverse.find? (fun q => q.1 == k)).isSome := by
    rw [List.find?_isSome]
    exact ⟨p, by simpa using hp, by simp [hpk]⟩
  cases ho : b.reverse.find? (fun q => q.1 == k) with
  | none => rw [ho] at hsome; simp at hsome
  | some q => simp [ho]

/-- Decidable per-key check used to settle claim C9: the table value of a
duplicated short name is the analysts path, and the resolver's table
fallback returns it with a leading slash even for an engineers query. -/
def dupOk (k : String) : Bool :=
  match dictLast analystsBlock k with
  | some v => sStarts v "data-analytics"
      && (find_target_path ("/engineers/" ++ k) [] true == some ("/" ++ v))
  | none => false

theorem dupOk_all :
    ((engineersBlock.map Prod.fst).filter
      (fun q => decide (q ∈ analystsBlock.map Prod.fst))).all dupOk = true := by
  decide

/-- Claim C9: every short name listed in both halves of `common_mappings`
resolves, through the dict literal's last-binding-wins semantics, to the
analysts entry; on such a name the table fallback of `find_target_path`
returns the `data-analytics` target even with `is_engineer = True`. -/
theorem claim_C9 :
    ∀ k, k ∈ engineersBlock.map Prod.fst → k ∈ analystsBlock.map Prod.fst →
      dictLast common_mappings k = dictLast analystsBlock k ∧
      ∃ v, dictLast analystsBlock k = some v ∧ sStarts v "data-analytics" = true ∧
        find_target_path ("/engineers/" ++ k) [] true = some ("/" ++ v) := by
  intro k h1 h2
  refine ⟨dictLast_append_right h2, ?_⟩
  have hdup : k ∈ (engineersBlock.map Prod.fst).filter
      (fun q => decide (q ∈ analystsBlock.map Prod.fst)) :=
    List.mem_filter.mpr ⟨h1, by simpa using h2⟩
  have hok : dupOk k = true := List.all_eq_true.mp dupOk_all k hdup
  rw [dupOk] at hok
  split at hok
  next v hv =>
    rw [Bool.and_eq_true] at hok
    refine ⟨v, hv, hok.1, by simpa using hok.2⟩
  next => simp at hok

/-- Witness for C9 at the duplicated short name `csv`. -/
theorem claim_C9_witness :
    dictLast common_mappings "csv"
        = some "data-analytics/gems/source-target/file/file-types/csv" ∧
    find_target_path "/engineers/csv" [] true
        = some "/data-analytics/gems/source-target/file/file-types/csv" := by
  have h := claim_C9 "csv" (by decide) (by decide)
  obtain ⟨heq, v, hv, _, hftp⟩ := h
  have hv2 : v = "data-analytics/gems/source-target/file/file-types/csv" := by
    have : dictLast analystsBlock "csv"
        = some "data-analytics/gems/source-target/file/file-types/csv" := by decide
    rw [this] at hv
    simpa using hv.symm
  subst hv2
  exact ⟨by rw [heq, hv], hftp⟩

/-! ### Totality and the synthesis fallback of `find_target_path` -/

theorem ftpCore_isSome (pp : String) (frag : Option String) (idx : Idx) (eng : Bool) :
    (ftpCore pp frag idx eng).isSome = true := by
  rw [ftpCore]
  split
  · simp
  · split
    · simp
    · split
      · simp
      · simp

/-- Claim C6: `find_target_path` never returns `None`, and whenever its
lookup, suffix and table rules all fail, the result is the section root
prepended to the remaining path (with the fragment re-attached). -/
theorem claim_C6 :
    (∀ old_path file_index is_engineer,
      (find_target_path old_path file_index is_engineer).isSome = true) ∧
    (∀ path_part frag file_index isEng,
      ftpLookupStep path_part file_index isEng = none →
      ftpSuffixLoop (splitSlash path_part) file_index isEng
        (splitSlash path_part).length = none →
      dictLast common_mappings path_part = none →
      ftpCore path_part frag file_index isEng
        = some (addFrag frag
            ((if isEng then "/data-engineering/" else "/data-analytics/") ++ path_part))) := by
  constructor
  · intro old_path file_index is_engineer
    exact ftpCore_isSome _ _ file_index _
  · intro path_part frag file_index isEng h1 h2 h3
    rw [ftpCore, h1, h2, h3]

/-- Witness for C6: a path unknown to every rule synthesizes the
engineering root. -/
theorem claim_C6_witness :
    (find_target_path "/analysts/whatever" [] false).isSome = true ∧
    ftpCore "zzz-not-there" none [] true = some "/data-engineering/zzz-not-there" := by
  constructor
  · exact claim_C6.1 "/analysts/whatever" [] false
  · have h := claim_C6.2 "zzz-not-there" none [] true (by decide) (by decide) (by decide)
    rw [h]
    decide

/-! ### Fragment preservation in `find_target_path` -/

theorem str_eq_of_data {a b : String} (h : a.data = b.data) : a = b := by
  cases a; cases b; exact congrArg String.mk h

theorem str_append_hash (x frag : String) :
    x ++ "#" ++ frag = String.mk (x.data ++ '#' :: frag.data) := by
  apply str_eq_of_data
  simp [String.data_append]

theorem takeWhile_append_stop {p : Char → Bool} {l₁ : List Char} {c : Char}
    (hall : ∀ x ∈ l₁, p x = true) (hc : p c = false) (l₂ : List Char) :
    (l₁ ++ c :: l₂).takeWhile p = l₁ ∧ (l₁ ++ c :: l₂).dropWhile p = c :: l₂ := by
  induction l₁ with
  | nil => simp [List.takeWhile_cons, List.dropWhile_cons, hc]
  | cons a t ih =>
    have hpa : p a = true := hall a (by simp)
    have iht := ih (fun x hx => hall x (by simp [hx]))
    simp [List.takeWhile_cons, List.dropWhile_cons, hpa, iht.1, iht.2]

theorem dropWhile_append_cons {p : Char → Bool} (l₁ : List Char) {c : Char}
    (hc : p c = false) (l₂ : List Char) :
    (l₁ ++ c :: l₂).dropWhile p = l₁.dropWhile p ++ c :: l₂ := by
  induction l₁ with
  | nil => simp [List.dropWhile_cons, hc]
  | cons a t ih =>
    by_cases hpa : p a = true
    · simp [List.dropWhile_cons, hpa, ih]
    · simp [List.dropWhile_cons, hpa]

theorem isPrefixOf_append_hash {pre : List Char} (hpre : '#' ∉ pre) :
    ∀ (x z : List Char), pre.isPrefixOf (x ++ '#' :: z) = pre.isPrefixOf x := by
  induction pre with
  | nil => intro x z; simp
  | cons a t ih =>
    intro x z
    cases x with
    | nil =>
      simp only [List.nil_append]
      have ha : (a == '#') = false := by
        have : a ≠ '#' := fun hq => hpre (hq ▸ List.mem_cons_self a t)
        simp [this]
      simp [List.isPrefixOf, ha]
    | cons b x2 =>
      simp only [List.cons_append, List.isPrefixOf]
      congr 1
      exact ih (fun hm => hpre (List.mem_cons_of_mem a hm)) x2 z

/-- No-slash containment survives the `#`-append on the Bool `startswith`
test used by `ftpStrip`. -/
theorem sStarts_append_hash (x z pre : String) (h : sContainsChar pre '#' = false) :
    sStarts (x ++ "#" ++ z) pre = sStarts x pre := by
  have hmem : '#' ∉ pre.data := by
    simpa [sContainsChar, List.elem_iff] using h
  rw [sStarts, sStarts, str_append_hash]
  exact isPrefixOf_append_hash hmem x.data z.data

theorem sDrop_append_hash (x z : String) (n : Nat) (hn : n ≤ x.data.length) :
    sDrop (x ++ "#" ++ z) n = sDrop x n ++ "#" ++ z := by
  apply str_eq_of_data
  rw [str_append_hash, str_append_hash]
  show (x.data ++ '#' :: z.data).drop n = (sDrop x n).data ++ '#' :: z.data
  rw [List.drop_append_of_le_length hn]
  rfl

theorem lstripSlash_append_hash (x z : String) :
    lstripSlash (x ++ "#" ++ z) = lstripSlash x ++ "#" ++ z := by
  apply str_eq_of_data
  rw [str_append_hash, str_append_hash]
  show (x.data ++ '#' :: z.data).dropWhile (· == '/')
      = (lstripSlash x).data ++ '#' :: z.data
  rw [dropWhile_append_cons x.data (by decide) z.data]
  rfl

theorem sStarts_length_le {s pre : String} (h : sStarts s pre = true) :
    pre.data.length ≤ s.data.length :=
  ((List.isPrefixOf_iff_prefix.mp h).length_le)

/-- The prefix-stripping of `find_target_path` commutes with appending a
`#`-fragment to a fragment-free reference. -/
theorem ftpStrip_hash (old frag : String) (eng : Bool)
    (h : sContainsChar old '#' = false) :
    ftpStrip (old ++ "#" ++ frag) eng
      = ((ftpStrip old eng).1 ++ "#" ++ frag, (ftpStrip old eng).2) := by
  rw [ftpStrip, ftpStrip]
  have hl : sContainsChar (lstripSlash old) '#' = false := by
    rw [sContainsChar] at h ⊢
    rw [show (lstripSlash old).data = old.data.dropWhile (· == '/') from rfl]
    rcases hc : (old.data.dropWhile (· == '/')).contains '#' with _ | _
    · rfl
    · rw [List.elem_iff] at hc
      have : '#' ∈ old.data := (List.dropWhile_sublist _).mem hc
      rw [show old.data.contains '#' = true from List.elem_iff.mpr this] at h
      exact h
  rw [lstripSlash_append_hash]
  rw [sStarts_append_hash _ _ "docs/" (by decide)]
  by_cases hdocs : sStarts (lstripSlash old) "docs/" = true
  · rw [if_pos hdocs, if_pos hdocs]
    have hlen : ("docs/" : String).data.length ≤ (lstripSlash old).data.length :=
      sStarts_length_le hdocs
    rw [sDrop_append_hash _ _ 5 (by simpa using hlen)]
    have hd : sContainsChar (sDrop (lstripSlash old) 5) '#' = false := by
      rw [sContainsChar] at hl ⊢
      rcases hc : ((sDrop (lstripSlash old) 5).data).contains '#' with _ | _
      · rfl
      · rw [List.elem_iff] at hc
        have : '#' ∈ (lstripSlash old).data :=
          (List.drop_sublist 5 _).mem (by simpa using hc)
        rw [show (lstripSlash old).data.contains '#' = true from
          List.elem_iff.mpr this] at hl
        exact hl
    rw [sStarts_append_hash _ _ "engineers/" (by decide)]
    rw [sStarts_append_hash _ _ "analysts/" (by decide)]
    by_cases he : sStarts (sDrop (lstripSlash old) 5) "engineers/" = true
    · rw [if_pos he, if_pos he]
      have hlen2 : ("engineers/" : String).data.length
          ≤ (sDrop (lstripSlash old) 5).data.length := sStarts_length_le he
      rw [sDrop_append_hash _ _ 10 (by simpa using hlen2)]
    · rw [if_neg he, if_neg he]
      by_cases ha : sStarts (sDrop (lstripSlash old) 5) "analysts/" = true
      · rw [if_pos ha, if_pos ha]
        have hlen2 : ("analysts/" : String).data.length
            ≤ (sDrop (lstripSlash old) 5).data.length := sStarts_length_le ha
        rw [sDrop_append_hash _ _ 9 (by simpa using hlen2)]
      · rw [if_neg ha, if_neg ha]
  · rw [if_neg hdocs, if_neg hdocs]
    rw [sStarts_append_hash _ _ "engineers/" (by decide)]
    rw [sStarts_append_hash _ _ "analysts/" (by decide)]
    by_cases he : sStarts (lstripSlash old) "engineers/" = true
    · rw [if_pos he, if_pos he]
      have hlen2 : ("engineers/" : String).data.length
          ≤ (lstripSlash old).data.length := sStarts_length_le he
      rw [sDrop_append_hash _ _ 10 (by simpa using hlen2)]
    · rw [if_neg he, if_neg he]
      by_cases ha : sStarts (lstripSlash old) "analysts/" = true
      · rw [if_pos ha, if_pos ha]
        have hlen2 : ("analysts/" : String).data.length
            ≤ (lstripSlash old).data.length := sStarts_length_le ha
        rw [sDrop_append_hash _ _ 9 (by simpa using hlen2)]
      · rw [if_neg ha, if_neg ha]

theorem splitHash_no_hash (pp : String) (h : sContainsChar pp '#' = false) :
    splitHash pp = (pp, none) := by
  rw [splitHash, h]
  simp

theorem splitHash_append (pp frag : String) (h : sContainsChar pp '#' = false) :
    splitHash (pp ++ "#" ++ frag) = (pp, some frag) := by
  have hall : ∀ x ∈ pp.data, (x != '#') = true := by
    intro x hx
    rcases hq : x == '#' with _ | _
    · simp [bne, hq]
    · have : x = '#' := by simpa using hq
      subst this
      rw [sContainsChar, show pp.data.contains '#' = true from
        List.elem_iff.mpr hx] at h
      exact absurd h (by simp)
  have hdata : (pp ++ "#" ++ frag).data = pp.data ++ '#' :: frag.data := by
    rw [str_append_hash]
  have hstop := takeWhile_append_stop (p := fun x => x != '#') (c := '#') hall (by decide) frag.data
  have hcontains : sContainsChar (pp ++ "#" ++ frag) '#' = true := by
    rw [sContainsChar, hdata, List.elem_iff]
    simp
  rw [splitHash, hcontains]
  simp only [if_true]
  have e1 : beforeCh '#' (pp ++ "#" ++ frag) = pp := by
    apply str_eq_of_data
    show ((pp ++ "#" ++ frag).data.takeWhile (· != '#')) = pp.data
    rw [hdata, hstop.1]
  have e2 : afterCh '#' (pp ++ "#" ++ frag) = frag := by
    apply str_eq_of_data
    show (((pp ++ "#" ++ frag).data.dropWhile (· != '#')).drop 1) = frag.data
    rw [hdata, hstop.2]
    rfl
  rw [e1, e2]

/-- Every return site of the resolver core appends the fragment: the core
on a non-empty fragment is the fragment-free core plus `#fragment`. -/
theorem ftpCore_frag (pp : String) (h : String) (idx : Idx) (eng : Bool)
    (hne : h ≠ "") :
    ftpCore pp (some h) idx eng
      = (ftpCore pp none idx eng).map (fun r => r ++ "#" ++ h) := by
  cases h1 : ftpLookupStep pp idx eng with
  | some r => simp [ftpCore, h1, addFrag, hne]
  | none =>
    cases h2 : ftpSuffixLoop (splitSlash pp) idx eng (splitSlash pp).length with
    | some r => simp [ftpCore, h1, h2, addFrag, hne]
    | none =>
      cases h3 : dictLast common_mappings pp with
      | some v => simp [ftpCore, h1, h2, h3, addFrag, hne]
      | none => simp [ftpCore, h1, h2, h3, addFrag, hne]

theorem contains_false_sublist {l₁ l₂ : List Char} {c : Char}
    (hsub : l₁.Sublist l₂) (h : l₂.contains c = false) : l₁.contains c = false := by
  rcases hc : l₁.contains c with _ | _
  · rfl
  · exfalso
    rw [List.elem_iff] at hc
    rw [show l₂.contains c = true from List.elem_iff.mpr (hsub.mem hc)] at h
    exact absurd h (by simp)

/-- The stripped path of a fragment-free reference stays fragment-free. -/
theorem ftpStrip_fst_no_hash (old : String) (eng : Bool)
    (h : sContainsChar old '#' = false) :
    sContainsChar (ftpStrip old eng).1 '#' = false := by
  have hbase : sContainsChar (lstripSlash old) '#' = false :=
    contains_false_sublist (List.dropWhile_sublist _) h
  rw [ftpStrip]
  by_cases h1 : sStarts (lstripSlash old) "docs/" = true
  · rw [if_pos h1]
    have hb2 : sContainsChar (sDrop (lstripSlash old) 5) '#' = false :=
      contains_false_sublist (List.drop_sublist 5 (lstripSlash old).data) hbase
    by_cases h2 : sStarts (sDrop (lstripSlash old) 5) "engineers/" = true
    · rw [if_pos h2]
      exact contains_false_sublist (List.drop_sublist 10 _) hb2
    · rw [if_neg h2]
      by_cases h3 : sStarts (sDrop (lstripSlash old) 5) "analysts/" = true
      · rw [if_pos h3]
        exact contains_false_sublist (List.drop_sublist 9 _) hb2
      · rw [if_neg h3]
        exact hb2
  · rw [if_neg h1]
    by_cases h2 : sStarts (lstripSlash old) "engineers/" = true
    · rw [if_pos h2]
      exact contains_false_sublist (List.drop_sublist 10 _) hbase
    · rw [if_neg h2]
      by_cases h3 : sStarts (lstripSlash old) "analysts/" = true
      · rw [if_pos h3]
        exact contains_false_sublist (List.drop_sublist 9 _) hbase
      · rw [if_neg h3]
        exact hbase

/-- Claim C4 (amended, update side): for every fragment-free reference and
non-empty fragment, `find_target_path` on the fragment-carrying reference
splits the fragment off before any lookup and returns the fragment-free
resolution with `#fragment` appended unchanged. -/
theorem claim_C4_amended :
    ∀ (old frag : String) (file_index : Idx) (is_engineer : Bool),
      sContainsChar old '#' = false → frag ≠ "" →
      find_target_path (old ++ "#" ++ frag) file_index is_engineer
        = (find_target_path old file_index is_engineer).map
            (fun r => r ++ "#" ++ frag) := by
  intro old frag file_index is_engineer h hne
  have hl : sContainsChar (ftpStrip old is_engineer).1 '#' = false :=
    ftpStrip_fst_no_hash old is_engineer h
  show ftpCore (splitHash (ftpStrip (old ++ "#" ++ frag) is_engineer).1).1
      (splitHash (ftpStrip (old ++ "#" ++ frag) is_engineer).1).2
      file_index (ftpStrip (old ++ "#" ++ frag) is_engineer).2
    = (ftpCore (splitHash (ftpStrip old is_engineer).1).1
        (splitHash (ftpStrip old is_engineer).1).2
        file_index (ftpStrip old is_engineer).2).map (fun r => r ++ "#" ++ frag)
  rw [ftpStrip_hash old frag is_engineer h]
  rw [show ((ftpStrip old is_engineer).1 ++ "#" ++ frag,
      (ftpStrip old is_engineer).2).1
    = (ftpStrip old is_engineer).1 ++ "#" ++ frag from rfl]
  rw [splitHash_append _ frag hl, splitHash_no_hash _ hl]
  exact ftpCore_frag _ frag file_index _ hne

/-- Counterexample for C4 as stated: the `fix_all_links.py` resolver does
not split fragments before lookup — a fragment-carrying reference fails
every lookup that its fragment-free form satisfies, instead of resolving
to the fragment-free target plus the fragment. -/
theorem claim_C4_counterexample :
    find_correct_path "foo/bar#sec"
        (build_file_index_fix ["data-engineering/x/bar"]) = none ∧
    find_correct_path "foo/bar"
        (build_file_index_fix ["data-engineering/x/bar"])
      = some "/data-engineering/x/bar" := by
  decide

/-- Witness for the amended C4 at the spec's example `foo/bar#section`. -/
theorem claim_C4_witness :
    find_target_path ("/engineers/foo/bar" ++ "#" ++ "section")
        (build_file_index_update ["data-engineering/x/bar"]) true
      = (find_target_path "/engineers/foo/bar"
          (build_file_index_update ["data-engineering/x/bar"]) true).map
          (fun r => r ++ "#" ++ "section") :=
  claim_C4_amended "/engineers/foo/bar" "section" _ true (by decide) (by decide)

/-! ### The suffix scan of `find_target_path` -/

theorem sStarts_slash_cons (c pre : String) :
    sStarts ("/" ++ c) ("/" ++ pre) = sStarts c pre := by
  simp [sStarts, String.data_append, List.isPrefixOf]

/-- The trailing-suffix lookup keys tried by the suffix loops, longest
first: `'/'.join(parts[j:])` for `j = 0, 1, …`. -/
def sfxQueryKeys (parts : List String) : List String :=
  (List.range parts.length).map (fun j => joinSlash (parts.drop j))

/-- The suffix loop of `find_target_path` equals a longest-first search
for the first suffix key owning a section-matching candidate; suffixes
whose candidates all lie outside the section are skipped, and there is no
fall-back to the first candidate in index order. -/
theorem ftpSuffixLoop_eq_findSome (parts : List String) (idx : Idx) (eng : Bool) :
    ftpSuffixLoop parts idx eng parts.length
      = ((sfxQueryKeys parts).findSome? (fun key =>
          (idxGet idx key).bind (fun cs => cs.find? (sectionHit eng)))).map
          (fun c => "/" ++ c) := by
  suffices H : ∀ i, i ≤ parts.length →
      ftpSuffixLoop parts idx eng i
        = (((List.range' (parts.length - i) i).map
            (fun j => joinSlash (parts.drop j))).findSome? (fun key =>
              (idxGet idx key).bind (fun cs => cs.find? (sectionHit eng)))).map
            (fun c => "/" ++ c) by
    have := H parts.length le_rfl
    simpa [sfxQueryKeys, List.range_eq_range'] using this
  intro i
  induction i with
  | zero => intro _; simp [ftpSuffixLoop]
  | succ n ih =>
    intro hle
    have harith : parts.length - (n + 1) + 1 = parts.length - n := by omega
    rw [ftpSuffixLoop, List.range'_succ, List.map_cons, List.findSome?_cons, harith]
    cases hF : (idxGet idx (joinSlash (parts.drop (parts.length - (n + 1))))).bind
        (fun cs => cs.find? (sectionHit eng)) with
    | some c => simp
    | none => simpa using ih (by omega)

theorem ftpSuffixLoop_section (parts : List String) (idx : Idx) (eng : Bool) :
    ∀ i r, ftpSuffixLoop parts idx eng i = some r →
      sStarts r (if eng then "/data-engineering" else "/data-analytics") = true := by
  intro i
  induction i with
  | zero => intro r h; simp [ftpSuffixLoop] at h
  | succ n ih =>
    intro r h
    rw [ftpSuffixLoop] at h
    split at h
    next c hc =>
      have hr : "/" ++ c = r := by simpa using h
      obtain ⟨cs, _, hfind⟩ := Option.bind_eq_some.mp hc
      have hcp : sectionHit eng c = true := List.find?_some hfind
      subst hr
      cases eng with
      | true =>
        rw [if_pos rfl]
        rw [show ("/data-engineering" : String) = "/" ++ "data-engineering" from by decide]
        rw [sStarts_slash_cons]
        simpa [sectionHit] using hcp
      | false =>
        rw [if_neg (by simp)]
        rw [show ("/data-analytics" : String) = "/" ++ "data-analytics" from by decide]
        rw [sStarts_slash_cons]
        simpa [sectionHit] using hcp
    next => exact ih r h

/-- Claim C3 (amended): the update resolver's suffix scan tries trailing
suffixes longest-first but resolves only at the first suffix owning a
candidate in the preferred section (skipping suffixes whose candidates lie
outside it, with no first-candidate fall-back), and every scan result lies
in the preferred section; the spec's scenario — index containing
`data-engineering/gems/transform/filter`, reference normalizing to
`transform/filter` — resolves to that candidate in both resolvers (in
`fix_all_links.py` through its filename-first rule). -/
theorem claim_C3_amended :
    (∀ parts idx eng,
      ftpSuffixLoop parts idx eng parts.length
        = ((sfxQueryKeys parts).findSome? (fun key =>
            (idxGet idx key).bind (fun cs => cs.find? (sectionHit eng)))).map
            (fun c => "/" ++ c)) ∧
    (∀ parts idx eng i r, ftpSuffixLoop parts idx eng i = some r →
      sStarts r (if eng then "/data-engineering" else "/data-analytics") = true) ∧
    find_target_path "/engineers/transform/filter"
        (build_file_index_update ["data-engineering/gems/transform/filter"]) true
      = some "/data-engineering/gems/transform/filter" ∧
    find_correct_path "transform/filter"
        (build_file_index_fix ["data-engineering/gems/transform/filter"])
      = some "/data-engineering/gems/transform/filter" := by
  refine ⟨ftpSuffixLoop_eq_findSome, ftpSuffixLoop_section, ?_, ?_⟩
  · decide
  · decide

/-- Counterexample for C3 as stated: with index
`{data-analytics/a/c/q, data-analytics/b/c/q}` and an engineers reference
normalizing to `c/q`, the longest suffix `c/q` is present in the index
with candidates, yet resolution skips it (no candidate lies in
`data-engineering`) and ends at the synthesized `/data-engineering/c/q`,
not at the first candidate of the present suffix. -/
theorem claim_C3_counterexample :
    idxGet (build_file_index_update ["data-analytics/a/c/q", "data-analytics/b/c/q"])
        "c/q" = some ["data-analytics/a/c/q", "data-analytics/b/c/q"] ∧
    find_target_path "/engineers/c/q"
        (build_file_index_update ["data-analytics/a/c/q", "data-analytics/b/c/q"]) true
      = some "/data-engineering/c/q" := by
  decide

/-- Witness for the amended C3: a successful suffix scan lands in the
preferred section. -/
theorem claim_C3_witness :
    sStarts "/data-engineering/x/q" "/data-engineering" = true := by
  have h := claim_C3_amended.2.1 ["q"]
    (build_file_index_update ["data-engineering/x/q"]) true 1
    "/data-engineering/x/q" (by decide)
  simpa using h

/-! ### The filename tie-break -/

/-- Candidate choice described by the spec's filename rule: the first
candidate starting with the hint when a non-empty hint is given, otherwise
the first candidate in index order. -/
def specPick (hint : String) (cs : List String) : String :=
  if hint = "" then cs.headD ""
  else
    match cs.find? (fun c => sStarts c hint) with
    | some c => c
    | none => cs.headD ""

theorem fcpPick_body (base : String) (cs : List String) :
    (if base ≠ "" then
        match cs.find? (fun c => sStarts c base) with
        | some c => some ("/" ++ c)
        | none => some ("/" ++ cs.headD "")
      else some ("/" ++ cs.headD ""))
      = some ("/" ++ specPick base cs) := by
  by_cases hb : base = ""
  · rw [if_neg (by simp [hb]), specPick, if_pos hb]
  · rw [if_pos hb, specPick, if_neg hb]
    cases hf : cs.find? (fun c => sStarts c base) with
    | some c => simp [hf]
    | none => simp [hf]

/-- The filename branch of `find_correct_path` realizes `specPick` with
the first path segment as hint (when the path has more than one
segment). -/
theorem fcpFilenameStep_eq_specPick (parts : List String) (idx : Idx)
    (cs : List String) (hcs : idxGet idx (parts.getLastD "") = some cs)
    (hne : cs ≠ []) :
    fcpFilenameStep parts idx
      = some ("/" ++ specPick (if 1 < parts.length then parts.headD "" else "") cs) := by
  rw [fcpFilenameStep, hcs]
  split
  case h_2 heq => simp at heq
  case h_1 candidates heq =>
    have hcc : cs = candidates := by simpa using heq
    subst hcc
    rw [if_pos hne]
    exact fcpPick_body (if 1 < parts.length then parts.headD "" else "") cs

/-- Claim C2 (amended): `fix_all_links.py`'s filename rule returns the
first hint-matching candidate when one exists and otherwise the first
candidate in index order; `update_links.py`'s filename lookup returns the
first section-matching candidate when one exists among several, but falls
through to later rules (never to the first candidate) when none does; the
spec's csv scenario resolves to the `data-engineering` candidate in both
resolvers. -/
theorem claim_C2_amended :
    (∀ (q : String) (idx : Idx) (cs : List String),
      fcpNormalize q = q →
      idxGet idx ((splitSlash q).getLastD "") = some cs → cs ≠ [] →
      find_correct_path q idx
        = some ("/" ++ specPick
            (if 1 < (splitSlash q).length then (splitSlash q).headD "" else "") cs)) ∧
    (∀ (pp : String) (frag : Option String) (idx : Idx) (eng : Bool)
        (cs : List String) (c : String),
      idxGet idx pp = some cs → cs.length ≠ 1 →
      cs.find? (sectionHit eng) = some c →
      ftpCore pp frag idx eng = some (addFrag frag ("/" ++ c))) ∧
    find_correct_path "data-engineering/old/csv"
        (build_file_index_fix ["data-engineering/x/csv", "data-analytics/y/csv"])
      = some "/data-engineering/x/csv" ∧
    find_target_path "/engineers/csv"
        (build_file_index_update ["data-engineering/x/csv", "data-analytics/y/csv"])
        true
      = some "/data-engineering/x/csv" := by
  refine ⟨?_, ?_, by decide, by decide⟩
  · intro q idx cs hq hcs hne
    have hstep := fcpFilenameStep_eq_specPick (splitSlash q) idx cs hcs hne
    rw [find_correct_path, hq, hstep]
  · intro pp frag idx eng cs c hcs hlen hfind
    cases cs with
    | nil => simp at hfind
    | cons a t =>
      cases t with
      | nil => exact absurd rfl hlen
      | cons b t2 =>
        rw [ftpCore, ftpLookupStep, hcs]
        simp [hfind]

/-- Counterexample for C2 as stated: a bare-filename key with several
candidates and no section match does not return the first candidate in
index order — `update_links.py` falls through to the static table. -/
theorem claim_C2_counterexample :
    idxGet (build_file_index_update ["data-analytics/y/csv"]) "csv"
        = some ["data-analytics/y/csv", "data-analytics/y/csv"] ∧
    find_target_path "/engineers/csv"
        (build_file_index_update ["data-analytics/y/csv"]) true
      = some "/data-analytics/gems/source-target/file/file-types/csv" ∧
    ("/data-analytics/gems/source-target/file/file-types/csv" : String)
      ≠ "/" ++ "data-analytics/y/csv" := by
  decide

/-- Witness for the amended C2 on the csv scenario index. -/
theorem claim_C2_witness :
    find_correct_path "data-engineering/old/csv"
        (build_file_index_fix ["data-engineering/x/csv", "data-analytics/y/csv"])
      = some ("/" ++ specPick "data-engineering"
          ["data-engineering/x/csv", "data-engineering/x/csv",
           "data-analytics/y/csv", "data-analytics/y/csv"]) := by
  have h := claim_C2_amended.1 "data-engineering/old/csv"
    (build_file_index_fix ["data-engineering/x/csv", "data-analytics/y/csv"])
    ["data-engineering/x/csv", "data-engineering/x/csv",
     "data-analytics/y/csv", "data-analytics/y/csv"]
    (by decide) (by decide) (by decide)
  rw [h]
  rw [show (if 1 < (splitSlash "data-engineering/old/csv").length
      then (splitSlash "data-engineering/old/csv").headD "" else "")
    = "data-engineering" from by decide]

/-! ### Frame and no-op properties of the rewriters -/

theorem withHead_parts {mt : List Char → Option (List Char × List Char)}
    {s d tg rest : List Char} (h : withHead mt s = some (d, tg, rest)) :
    d ≠ [] ∧ (∀ x ∈ d, x ≠ ']') ∧ ∃ v, mt v = some (tg, rest) := by
  rw [withHead] at h
  split at h
  case h_2 => simp at h
  case h_1 d2 v hsb =>
    split at h
    case h_2 => simp at h
    case h_1 tg2 rest2 hmt2 =>
      obtain ⟨rfl, rfl, rfl⟩ := by simpa using h
      obtain ⟨-, hne, hmem⟩ := splitBracketHead_recon hsb
      exact ⟨hne, hmem, v, hmt2⟩

/-- Claim C7: each `re.sub` pass of the two rewriters decomposes its input
into plain text alternating with matched link constructs
`[display](target)`; the output is the same text with only each matched
construct's target replaced — plain-text occurrences of the target string
and all other bytes are unchanged.  The side conditions record the
construct shapes guaranteed by each pattern (for the fix pattern, the
target is the literal broken link plus an untouched optional
`#`-fragment). -/
theorem claim_C7 :
    (∀ (b r : List Char) (s : List Char), ∃ ch last,
      s = renderCh id ch last ∧
      subF b r s = renderCh (fun tg => r ++ tg.drop b.length) ch last ∧
      ∀ x ∈ ch, x.2.1 ≠ [] ∧ (∀ y ∈ x.2.1, y ≠ ']') ∧
        ∃ hs, x.2.2 = b ++ hs ∧
          (hs = [] ∨ ∃ h2, hs = '#' :: h2 ∧ ∀ y ∈ h2, y ≠ ')')) ∧
    (∀ (mappings : List (String × String)) (idx : Idx) (s : List Char), ∃ ch last,
      s = renderCh id ch last ∧
      upSub1 mappings idx s = renderCh (repU1 mappings idx) ch last ∧
      ∀ x ∈ ch, x.2.1 ≠ [] ∧ (∀ y ∈ x.2.1, y ≠ ']') ∧
        ∃ p t2, (p = "/engineers".data ∨ p = "/analysts".data) ∧
          x.2.2 = p ++ t2 ∧ t2 ≠ [] ∧ ∀ y ∈ t2, y ≠ ')') ∧
    (∀ (mappings : List (String × String)) (idx : Idx) (s : List Char), ∃ ch last,
      s = renderCh id ch last ∧
      upSub2 mappings idx s = renderCh (repU2 mappings idx) ch last ∧
      ∀ x ∈ ch, x.2.1 ≠ [] ∧ (∀ y ∈ x.2.1, y ≠ ']') ∧
        ∃ g t2, (g = "engineers".data ∨ g = "analysts".data) ∧
          x.2.2 = "docs/".data ++ g ++ t2 ∧ t2 ≠ [] ∧ ∀ y ∈ t2, y ≠ ')') := by
  refine ⟨fun b r s => ?_, fun mappings idx s => ?_, fun mappings idx s => ?_⟩
  · exact scanSub_decomp (withHead (matchTargetF b)) (matchFLen b)
      (fun tg => r ++ tg.drop b.length)
      (fun d tg => d ≠ [] ∧ (∀ y ∈ d, y ≠ ']') ∧
        ∃ hs, tg = b ++ hs ∧ (hs = [] ∨ ∃ h2, hs = '#' :: h2 ∧ ∀ y ∈ h2, y ≠ ')'))
      (fun s2 d tg rest h => withHead_recon (fun h2 => (matchTargetF_recon h2).1) h)
      (fun s2 d tg rest h => by
        obtain ⟨hne, hmem, v, hv⟩ := withHead_parts h
        exact ⟨hne, hmem, (matchTargetF_recon hv).2⟩) s
  · exact scanSub_decomp (withHead matchTargetU1) matchU1Len
      (repU1 mappings idx)
      (fun d tg => d ≠ [] ∧ (∀ y ∈ d, y ≠ ']') ∧
        ∃ p t2, (p = "/engineers".data ∨ p = "/analysts".data) ∧
          tg = p ++ t2 ∧ t2 ≠ [] ∧ ∀ y ∈ t2, y ≠ ')')
      (fun s2 d tg rest h => withHead_recon (fun h2 => (matchTargetU1_recon h2).1) h)
      (fun s2 d tg rest h => by
        obtain ⟨hne, hmem, v, hv⟩ := withHead_parts h
        exact ⟨hne, hmem, (matchTargetU1_recon hv).2⟩) s
  · exact scanSub_decomp (withHead matchTargetU2) matchU2Len
      (repU2 mappings idx)
      (fun d tg => d ≠ [] ∧ (∀ y ∈ d, y ≠ ']') ∧
        ∃ g t2, (g = "engineers".data ∨ g = "analysts".data) ∧
          tg = "docs/".data ++ g ++ t2 ∧ t2 ≠ [] ∧ ∀ y ∈ t2, y ≠ ')')
      (fun s2 d tg rest h => withHead_recon (fun h2 => (matchTargetU2_recon h2).1) h)
      (fun s2 d tg rest h => by
        obtain ⟨hne, hmem, v, hv⟩ := withHead_parts h
        exact ⟨hne, hmem, (matchTargetU2_recon hv).2⟩) s

theorem fixOneLink_no_op (idx : Idx) (content : String) (b : String)
    (h : ∀ t ∈ content.data.tails, withHead (matchTargetF b.data) t = none) :
    fixOneLink idx content b = content := by
  rw [fixOneLink]
  split
  · rfl
  · cases hr : fixResolve b idx with
    | none => rfl
    | some r =>
      show String.mk (subF b.data r.data content.data) = content
      rw [show subF b.data r.data content.data = content.data from
        scanSub_no_match _ _ _ content.data h]

theorem fix_links_content_no_op (broken_links : List String) (idx : Idx) :
    ∀ content : String,
      (∀ b ∈ broken_links, ∀ t ∈ content.data.tails,
        withHead (matchTargetF b.data) t = none) →
      fix_links_content broken_links idx content = content := by
  induction broken_links with
  | nil => intro content _; rfl
  | cons b bs ih =>
    intro content h
    rw [fix_links_content, List.foldl_cons,
      fixOneLink_no_op idx content b (h b (by simp))]
    exact ih content (fun b2 hb2 => h b2 (by simp [hb2]))

theorem update_links_content_no_op (mappings : List (String × String)) (idx : Idx)
    (content : String)
    (h1 : ∀ t ∈ content.data.tails, withHead matchTargetU1 t = none)
    (h2 : ∀ t ∈ content.data.tails, withHead matchTargetU2 t = none) :
    update_links_content mappings idx content = content := by
  rw [update_links_content]
  rw [show upSub1 mappings idx content.data = content.data from
    scanSub_no_match _ _ _ content.data h1]
  rw [show upSub2 mappings idx content.data = content.data from
    scanSub_no_match _ _ _ content.data h2]

/-- Counterexample for C5 as stated: one run of the fix rewriter on
`[t](x#[u](x)` with broken link `x` consumes the inner link as part of the
outer match's fragment; the second run then rewrites the inner link, so
twice is not once. -/
theorem claim_C5_counterexample :
    fix_links_content ["x"] (build_file_index_fix ["data-engineering/a/x"])
        (fix_links_content ["x"] (build_file_index_fix ["data-engineering/a/x"])
          "[t](x#[u](x)")
      ≠ fix_links_content ["x"] (build_file_index_fix ["data-engineering/a/x"])
          "[t](x#[u](x)" := by
  decide

/-- Claim C5 (amended): a document in which no broken-link string occurs
inside link syntax — no suffix of the text matches the rewriter's pattern
— is returned unchanged by either rewriter, so a second run is a no-op
whenever the first run's output contains no matchable construct;
unconditional two-run idempotence does not hold. -/
theorem claim_C5_amended :
    (∀ (broken_links : List String) (idx : Idx) (content : String),
      (∀ b ∈ broken_links, ∀ t ∈ content.data.tails,
        withHead (matchTargetF b.data) t = none) →
      fix_links_content broken_links idx content = content) ∧
    (∀ (mappings : List (String × String)) (idx : Idx) (content : String),
      (∀ t ∈ content.data.tails, withHead matchTargetU1 t = none) →
      (∀ t ∈ content.data.tails, withHead matchTargetU2 t = none) →
      update_links_content mappings idx content = content) :=
  ⟨fun bl idx content h => fix_links_content_no_op bl idx content h,
   fun m idx content h1 h2 => update_links_content_no_op m idx content h1 h2⟩

/-- Witness for the amended C5: plain-text mentions of a broken link and
of `/engineers/csv` outside link syntax are left untouched. -/
theorem claim_C5_witness :
    fix_links_content ["x"] (build_file_index_fix ["data-engineering/a/x"])
        "see x and [t](y) here"
      = "see x and [t](y) here" ∧
    update_links_content [] [] "mentions /engineers/csv and docs/analysts/foo"
      = "mentions /engineers/csv and docs/analysts/foo" := by
  constructor
  · exact claim_C5_amended.1 ["x"] (build_file_index_fix ["data-engineering/a/x"])
      "see x and [t](y) here" (by decide)
  · exact claim_C5_amended.2 [] [] "mentions /engineers/csv and docs/analysts/foo"
      (by decide) (by decide)

/-! ### Behaviour of the two `main` functions on empty checker output -/

/-- Claim C1 (amended): when the checker produces no output,
`fix_all_links.main` returns before fixing anything and writes no
document. -/
theorem claim_C1_amended :
    ∀ (tree : List String) (docs : List (String × String)),
      fix_main_writes "" tree docs = [] := by
  intro tree docs
  rw [fix_main_writes, if_pos rfl]

/-- Counterexample for C1 as stated: `update_links.main` does not abort on
empty checker output — it warns and continues, and its file scan still
rewrites a document containing a legacy link. -/
theorem claim_C1_counterexample :
    update_main_writes "" [] [("a.mdx", "[t](/engineers/csv)")]
      = [("a.mdx", "[t](/data-analytics/gems/source-target/file/file-types/csv)")] := by
  decide

end ProphecyLinks
